import Mathlib

/-!
Verification development for the Zeyphr AI voice-therapy backend.

The development shallowly embeds the parts of the code that the checked
properties are about:

* the single-flight text-to-speech queue of `azureTTS` (module-level state
  `isSynthesizerBusy` / `requestQueue` / `isProcessingQueue`, the functions
  `textToSpeech`, `queueRequest`, `processQueue`, `textToSpeechInternal`,
  `cleanupSynthesizer`, and the per-request closure variable `isInterrupted`),
  modelled as a small-step machine driven by external events (submissions,
  handle stops, provider callbacks, drain timers);
* the per-session conversation-history updates of the `userSpeech` handler;
* the `userSpeech` input validation;
* the completion client `getTherapistResponse` of `openrouter-clean`;
* the SSML generator `generateOptimizedSSML`.

Requests are identified by a ghost numeric id (`rid`) so that callback
invocations (`onAudioChunk` / `onError` / `onComplete`) can be attributed to
the request whose closure they belong to; the machine records every callback
invocation in an event log.
-/

namespace ZeyphrAI

/-- One recorded callback invocation of a synthesis request: the request's
`onAudioChunk`, `onError` or `onComplete` callback firing. -/
inductive CbEvent where
  | chunk (rid : Nat)
  | errorCb (rid : Nat)
  | complete (rid : Nat)
deriving DecidableEq

/-- The request id a callback event belongs to. -/
def CbEvent.rid : CbEvent → Nat
  | .chunk r => r
  | .errorCb r => r
  | .complete r => r

/-- Closure state of one request that `textToSpeechInternal` has started:
`interrupted` is the closure variable `isInterrupted`; `delivered` records
that the provider has already fired the `speakSsmlAsync` result/error
callback for this request (each such callback fires at most once);
`cleaned` records that the request's `cleanup()` has run at least once. -/
structure StartedReq where
  rid : Nat
  interrupted : Bool
  delivered : Bool
  cleaned : Bool
deriving DecidableEq

/-- Module-level state of `azureTTS`: `busy` is `isSynthesizerBusy`,
`processing` is `isProcessingQueue`, `pending` is `requestQueue` (request
ids in FIFO order), `started` is the set of closures created by
`textToSpeechInternal`, `timers` counts scheduled 50 ms drain timeouts,
`synthAlive` tracks `persistentSynthesizer !== null`, and `events` is the
log of callback invocations. `nextId` supplies fresh request ids. -/
structure TTSState where
  nextId : Nat
  busy : Bool
  processing : Bool
  pending : List Nat
  started : List StartedReq
  timers : Nat
  synthAlive : Bool
  events : List CbEvent
deriving DecidableEq

/-- Initial module state: no synthesizer, idle queue. -/
def initState : TTSState :=
  { nextId := 0, busy := false, processing := false, pending := [],
    started := [], timers := 0, synthAlive := false, events := [] }

/-- The entry prologue of `textToSpeechInternal`: sets `isSynthesizerBusy`,
lazily creates the persistent synthesizer, and creates the request's
closure with `isInterrupted = false`. -/
def startInternal (s : TTSState) (rid : Nat) : TTSState :=
  { s with busy := true, synthAlive := true,
           started := s.started ++ [⟨rid, false, false, false⟩] }

/-- Update every started-request record carrying the given id. -/
def markReq (rid : Nat) (f : StartedReq → StartedReq)
    (l : List StartedReq) : List StartedReq :=
  l.map (fun r => if r.rid = rid then f r else r)

/-- Look up the closure record of a started request. -/
def findReq (s : TTSState) (rid : Nat) : Option StartedReq :=
  s.started.find? (fun r => r.rid == rid)

/-- The `cleanup()` closure of `textToSpeechInternal`: clears
`isSynthesizerBusy`, invokes the request's `onComplete`, and schedules a
drain timeout (`setTimeout(..., 50)`) that will clear `isProcessingQueue`
and call `processQueue`. The `cleaned` ghost flag records that cleanup has
run for this request. -/
def cleanupFn (s : TTSState) (rid : Nat) : TTSState :=
  { s with busy := false,
           started := markReq rid (fun r => { r with cleaned := true }) s.started,
           events := s.events ++ [.complete rid],
           timers := s.timers + 1 }

/-- The `stop` member of the handle returned by `textToSpeechInternal`:
if the closure's `isInterrupted` is not yet set, set it, ask the provider
to stop (`stopSpeakingAsync`, no module-state effect), and run `cleanup()`;
otherwise do nothing. -/
def doStop (s : TTSState) (rid : Nat) : TTSState :=
  match findReq s rid with
  | none => s
  | some r =>
    if r.interrupted then s
    else
      cleanupFn
        { s with started := markReq rid (fun x => { x with interrupted := true }) s.started }
        rid

/-- The `speakSsmlAsync` result callback: if not interrupted and the result
reason is `SynthesizingAudioCompleted`, deliver the audio chunk (when the
result carries audio data); if the reason is not completed, invoke
`onError`; in every case run `cleanup()`. -/
def deliverResult (s : TTSState) (rid : Nat) (completed hasAudio : Bool) : TTSState :=
  match findReq s rid with
  | none => s
  | some r =>
    let s1 := { s with started := markReq rid (fun x => { x with delivered := true }) s.started }
    let s2 :=
      if !r.interrupted && completed then
        (if hasAudio then { s1 with events := s1.events ++ [.chunk rid] } else s1)
      else if !completed then { s1 with events := s1.events ++ [.errorCb rid] }
      else s1
    cleanupFn s2 rid

/-- The `speakSsmlAsync` error callback: invoke `onError`, then `cleanup()`. -/
def deliverError (s : TTSState) (rid : Nat) : TTSState :=
  let s1 := { s with started := markReq rid (fun x => { x with delivered := true }) s.started }
  cleanupFn { s1 with events := s1.events ++ [.errorCb rid] } rid

/-- `processQueue`: returns immediately when `isProcessingQueue` is set, the
queue is empty, or the synthesizer is busy; otherwise sets
`isProcessingQueue`, shifts the queue head, and starts it via
`textToSpeechInternal`. -/
def processQueueFn (s : TTSState) : TTSState :=
  if s.processing then s
  else
    match s.pending with
    | [] => s
    | rid :: rest =>
      if s.busy then s
      else startInternal { s with processing := true, pending := rest } rid

/-- Body of the 50 ms `setTimeout` scheduled by `cleanup()`: clears
`isProcessingQueue` and calls `processQueue`. -/
def drainFn (s : TTSState) : TTSState :=
  processQueueFn { s with timers := s.timers - 1, processing := false }

/-- `cleanupSynthesizer`: closes and discards the persistent synthesizer,
clears `isSynthesizerBusy`, empties `requestQueue`, and clears
`isProcessingQueue`. Queued requests are dropped without any callback. -/
def cleanupSynthFn (s : TTSState) : TTSState :=
  { s with synthAlive := false, busy := false, pending := [], processing := false }

/-- What a `textToSpeech` call returns to its caller: a no-op handle
(`{ stop: () => {} }`, from the invalid-input and missing-credentials
paths), a real handle over a started request, or `undefined` (the value of
`return queueRequest(...)`, since `queueRequest` returns nothing). -/
inductive TTSRet where
  | noopHandle
  | handle (rid : Nat)
  | noRet
deriving DecidableEq

/-- The exported `textToSpeech(text, onAudioChunk, onError, onComplete)`.
`validText` stands for `text` being a non-empty string, `creds` for
`checkCredentials()`. On invalid text or missing credentials it invokes
`onError` synchronously on the caller's callback (the request never enters
the queue, so this is not logged against a request id) and returns a no-op
handle. When the synthesizer is busy it appends the request to
`requestQueue` via `queueRequest` (whose `processQueue` call is a no-op
because `isSynthesizerBusy` is still set) and returns `undefined`;
otherwise it starts the request immediately and returns its handle. -/
def textToSpeech (validText creds : Bool) (s : TTSState) : TTSState × TTSRet :=
  if !validText then (s, .noopHandle)
  else if !creds then (s, .noopHandle)
  else if s.busy then
    ({ s with nextId := s.nextId + 1, pending := s.pending ++ [s.nextId] }, .noRet)
  else
    (startInternal { s with nextId := s.nextId + 1 } s.nextId, .handle s.nextId)

/-- External events driving the module: a valid `textToSpeech` call, a
`stop()` call on a started request's handle, the provider result or error
callback for a started request (each fires at most once per request), a
scheduled drain timeout firing, and a `cleanupSynthesizer` call. -/
inductive Ev where
  | submit
  | stop (rid : Nat)
  | result (rid : Nat) (completed hasAudio : Bool)
  | fail (rid : Nat)
  | drain
  | cleanupSynth
deriving DecidableEq

/-- One step of the module under an external event; `none` when the event
is not enabled (unknown handle, provider callback already consumed, no
scheduled timer). -/
def step (s : TTSState) : Ev → Option TTSState
  | .submit => some (textToSpeech true true s).1
  | .stop rid =>
    match findReq s rid with
    | some _ => some (doStop s rid)
    | none => none
  | .result rid c a =>
    match findReq s rid with
    | some r => if r.delivered then none else some (deliverResult s rid c a)
    | none => none
  | .fail rid =>
    match findReq s rid with
    | some r => if r.delivered then none else some (deliverError s rid)
    | none => none
  | .drain => if s.timers = 0 then none else some (drainFn s)
  | .cleanupSynth => some (cleanupSynthFn s)

/-- Run a list of events from a given state. -/
def runFrom (s : TTSState) : List Ev → Option TTSState
  | [] => some s
  | e :: es =>
    match step s e with
    | some s' => runFrom s' es
    | none => none

/-- Run a list of events from the initial module state. -/
def run (evs : List Ev) : Option TTSState := runFrom initState evs

/-- Discipline on traces: `stop()` is not called on a handle whose request
has already completed naturally, and the provider fires no callback for a
request after its handle was stopped; `cleanupSynthesizer` does not occur.
Under this discipline each request's `cleanup()` runs at most once. -/
def evOk (s : TTSState) : Ev → Bool
  | .stop rid =>
    match findReq s rid with
    | some r => !(r.cleaned && !r.interrupted)
    | none => true
  | .result rid _ _ =>
    match findReq s rid with
    | some r => !r.interrupted
    | none => true
  | .fail rid =>
    match findReq s rid with
    | some r => !r.interrupted
    | none => true
  | .cleanupSynth => false
  | _ => true

/-- One disciplined step. -/
def stepD (s : TTSState) (e : Ev) : Option TTSState :=
  if evOk s e then step s e else none

/-- Run a list of disciplined events from a given state. -/
def runFromD (s : TTSState) : List Ev → Option TTSState
  | [] => some s
  | e :: es =>
    match stepD s e with
    | some s' => runFromD s' es
    | none => none

/-- Run a list of disciplined events from the initial module state. -/
def runD (evs : List Ev) : Option TTSState := runFromD initState evs

/-!
Conversation history, from the `userSpeech` handler of the server file
(`src/unnamed/part_000`): the handler pushes the user message (content
capped at 500 characters), truncates the history to its last 12 entries
when it exceeds 12, and — on a successful completion call — pushes the
assistant reply without truncating.
-/

/-- Role of a conversation-history entry. -/
inductive Role where
  | user
  | assistant
deriving DecidableEq

/-- A character the JavaScript `trim()` strips (the common whitespace
subset: space, tab, newline, carriage return). -/
def isJsWhitespace (c : Char) : Bool :=
  c = ' ' || c = '\t' || c = '\n' || c = '\r'

/-- JavaScript `String.prototype.trim` over a character-list text: strip
whitespace from both ends. Texts are modelled as character lists so that
every operation computes. -/
def jsTrim (l : List Char) : List Char :=
  ((l.dropWhile isJsWhitespace).reverse.dropWhile isJsWhitespace).reverse

/-- One `{role, content}` entry of `session.conversationHistory`. -/
structure Entry where
  role : Role
  content : List Char
deriving DecidableEq

/-- The user-message push of the `userSpeech` handler:
`push({role:'user', content: cleanText.substring(0,500)})` followed by
`if (length > 12) history = history.slice(-12)`. -/
def pushUserMsg (h : List Entry) (cleanText : List Char) : List Entry :=
  let h' := h ++ [⟨Role.user, cleanText.take 500⟩]
  if h'.length > 12 then h'.drop (h'.length - 12) else h'

/-- The assistant-reply push of the `userSpeech` handler:
`push({role:'assistant', content: aiResponse})`, with no truncation. -/
def pushAssistantMsg (h : List Entry) (reply : List Char) : List Entry :=
  h ++ [⟨Role.assistant, reply⟩]

/-- One processed exchange: the user push always happens; the assistant
push happens when the completion call produced a reply (`some`), and is
skipped on the handler's catch path (`none`). -/
def runExchange (h : List Entry) (x : List Char × Option (List Char)) : List Entry :=
  match x.2 with
  | some reply => pushAssistantMsg (pushUserMsg h x.1) reply
  | none => pushUserMsg h x.1

/-- The history after a sequence of processed exchanges, starting from the
empty history of a fresh session. -/
def runExchanges (xs : List (List Char × Option (List Char))) : List Entry :=
  xs.foldl runExchange []

/-!
Input validation of the `userSpeech` handler. The handler drops the event
(plain `return`, no emit, no state change) unless the session exists, the
text is a truthy string, its trimmed length is nonzero, its raw length is
at most 1000, and its trimmed length is at least 2. The session's
`isActive` flag is not consulted.
-/

/-- The `userSpeech` validation: `text` is `none` when the payload is not a
string (the `typeof` check), `some u` otherwise. Mirrors
`!session || !text || typeof text !== 'string' || text.trim().length === 0
|| text.length > 1000` and the subsequent `cleanText.length < 2` check.
The `active` parameter (the session's `isActive` flag) is unused, exactly
as in the handler. -/
def utteranceAccepted (sessionExists active : Bool) (text : Option (List Char)) : Bool :=
  match text with
  | none => false
  | some u =>
    sessionExists && !(decide (u = [])) && !(decide ((jsTrim u).length = 0))
      && !(decide (u.length > 1000)) && !(decide ((jsTrim u).length < 2))

/-- Modelled from the spec: the validation condition as §4.4 of the spec
states it — session exists AND is active AND the trimmed text length lies
in `[2, 1000]`. Stated only to be compared against `utteranceAccepted`,
which is translated from the handler. -/
def utteranceSpecCond (sessionExists active : Bool) (text : Option (List Char)) : Bool :=
  match text with
  | none => false
  | some u =>
    sessionExists && active && decide (2 ≤ (jsTrim u).length) && decide ((jsTrim u).length ≤ 1000)

/-- Observable outcome of one `userSpeech` event up to the completion call:
the session history afterwards, whether the completion client was called,
and whether a validation failure emitted any client-visible event (the
handler's validation failures just `return`). -/
structure UtteranceOutcome where
  newHistory : List Entry
  completionCalled : Bool
  droppedWithEmit : Bool
deriving DecidableEq

/-- The `userSpeech` handler up to and including the completion-client
call: on validation failure it silently returns; on success it pushes the
trimmed user text and calls the completion client. -/
def userSpeechStep (sessionExists active : Bool) (text : Option (List Char))
    (hist : List Entry) : UtteranceOutcome :=
  if utteranceAccepted sessionExists active text then
    { newHistory := pushUserMsg hist (jsTrim (text.getD [])),
      completionCalled := true, droppedWithEmit := false }
  else
    { newHistory := hist, completionCalled := false, droppedWithEmit := false }

/-!
The completion client `getTherapistResponse` of
`src/services/openrouter-clean.js`. The remote interaction is abstracted
into the observable outcome of the `try` block; every throwing path of the
block (network failure, the 8 s abort, `response.text()` / `response.json()`
throwing, `content.trim()` on a non-string content) is one `throws`-style
outcome caught by the surrounding `catch`.
-/

/-- Outcome of the remote call inside the `try` block of
`getTherapistResponse`. -/
inductive ApiOutcome where
  | throws
  | httpError
  | badShape
  | badContent
  | success (content : String)
deriving DecidableEq

/-- Fallback returned when `OPENROUTER_API_KEY` is missing. -/
def noKeyFallback : String := "I'm here to listen. Could you tell me more about that?"

/-- Fallback returned on a non-ok HTTP status. -/
def httpErrorFallback : String := "I understand you're sharing something important. Please continue."

/-- Fallback returned when the response JSON lacks `choices[0].message`. -/
def badShapeFallback : String := "I'm listening. Could you elaborate on that?"

/-- The pre-defined empathetic fallback strings of the `catch` path. -/
def fallbackResponses : List String :=
  [ "I feel like there's something really important you're sharing with me. I want to make sure I understand - can you tell me more?",
    "What you're saying really resonates with me. I can sense there's a lot going on beneath the surface. How are you holding up with all of this?",
    "I'm right here with you. Sometimes the connection gets a bit wonky, but I'm still listening. What's been weighing on your heart?",
    "I can feel that this means a lot to you. I don't want to miss anything important - can you walk me through what's happening?",
    "You know what? I think what you're sharing is really significant. I want to give it the attention it deserves. Can you help me understand better?",
    "I'm sensing there's so much depth to what you're experiencing. I really want to be here for you - can you share more about how this feels?",
    "Something tells me there's a story here that matters deeply to you. I'm here to listen - what's going on in your world right now?" ]

/-- The `try` block of `getTherapistResponse` as a fallible computation:
`Except.error` marks the throwing paths that the `catch` clause receives. -/
def attemptResponse : ApiOutcome → Except Unit String
  | .throws => .error ()
  | .httpError => .ok httpErrorFallback
  | .badShape => .ok badShapeFallback
  | .badContent => .error ()
  | .success content => .ok content.trim

/-- `getTherapistResponse`: returns the fixed fallback when the API key is
missing; otherwise runs the `try` block and, on any caught exception,
returns `fallbackResponses[Math.floor(Math.random() * length)]` where
`rand` abstracts the random draw. Total — it never raises to its caller. -/
def getTherapistResponse (hasKey : Bool) (outcome : ApiOutcome) (rand : Nat) : String :=
  if !hasKey then noKeyFallback
  else
    match attemptResponse outcome with
    | .ok s => s
    | .error _ => fallbackResponses.getD (rand % fallbackResponses.length) ""

/-!
The SSML generator `generateOptimizedSSML` of `azureTTS`. Texts are
modelled as character lists; a JavaScript `String.prototype.replace` with a
single-character global pattern is a flat map over the characters (the
replacement text is not rescanned by the same `replace`), and a
single-character non-global pattern replaces the first occurrence only.
-/

/-- A global single-character `replace`: every occurrence of `c` becomes
`rep`. -/
def replaceCharAll (c : Char) (rep : List Char) (l : List Char) : List Char :=
  l.flatMap (fun x => if x = c then rep else [x])

/-- A non-global single-character `replace`: only the first occurrence of
`c` becomes `rep`. -/
def replaceCharFirst (c : Char) (rep : List Char) : List Char → List Char
  | [] => []
  | x :: xs => if x = c then rep ++ xs else x :: replaceCharFirst c rep xs

/-- The XML escaping at the top of `generateOptimizedSSML`:
`.replace(/&/g,'&amp;').replace(/</g,'&lt;').replace(/>/g,'&gt;')`. -/
def escapeXml (l : List Char) : List Char :=
  replaceCharAll '>' ("&gt;".data)
    (replaceCharAll '<' ("&lt;".data)
      (replaceCharAll '&' ("&amp;".data) l))

/-- Per-character escaping: what a correct single pass over the text does
to one character. `escapeXml` is proved equal to flat-mapping this. -/
def escChar (c : Char) : List Char :=
  if c = '&' then ("&amp;".data)
  else if c = '<' then ("&lt;".data)
  else if c = '>' then ("&gt;".data)
  else [c]

/-- The quality-mode pause insertion over the escaped text: the first `?`
(non-global pattern) and every `.`, `,`, `!` get a `<break/>` tag
prepended. -/
def insertBreaks (l : List Char) : List Char :=
  replaceCharAll '!' ("<break time=\"150ms\"/>!".data)
    (replaceCharAll ',' ("<break time=\"100ms\"/>,".data)
      (replaceCharAll '.' ("<break time=\"150ms\"/>.".data)
        (replaceCharFirst '?' ("<break time=\"200ms\"/>?".data) l)))

/-- The three performance modes. -/
inductive PerfMode where
  | fast
  | balanced
  | quality
deriving DecidableEq

/-- Voice name selected from the current voice gender. -/
def voiceNameFor (female : Bool) : String :=
  if female then "en-US-AvaNeural" else "en-US-AndrewNeural"

/-- The markup each mode embeds between its fixed template parts: the
escaped text for fast and balanced modes, the escaped text with pause
markers for quality mode. -/
def embeddedText (mode : PerfMode) (text : List Char) : List Char :=
  match mode with
  | .quality => insertBreaks (escapeXml text)
  | _ => escapeXml text

/-- `generateOptimizedSSML`: the template literal of each performance mode
with the escaped input text interpolated. -/
def generateOptimizedSSML (mode : PerfMode) (female : Bool) (text : List Char) : List Char :=
  let voiceName := voiceNameFor female
  match mode with
  | .fast =>
    ("<speak version=\"1.0\" xml:lang=\"en-US\"><voice name=\"" ++ voiceName ++ "\">").data
      ++ embeddedText mode text ++ ("</voice></speak>".data)
  | .balanced =>
    ("<speak version=\"1.0\" xml:lang=\"en-US\">\n        <voice name=\"" ++ voiceName
      ++ "\">\n          <prosody rate=\"" ++ (if female then "0.95" else "0.9")
      ++ "\" pitch=\"" ++ (if female then "+2%" else "+1%")
      ++ "\" volume=\"+5%\">\n            ").data
      ++ embeddedText mode text
      ++ ("\n          </prosody>\n        </voice>\n      </speak>".data)
  | .quality =>
    ("<speak version=\"1.0\" xmlns=\"http://www.w3.org/2001/10/synthesis\"\n             xmlns:mstts=\"http://www.w3.org/2001/mstts\" xml:lang=\"en-US\">\n        <voice name=\""
      ++ voiceName
      ++ "\">\n          <mstts:express-as style=\"" ++ (if female then "warm" else "friendly")
      ++ "\" styledegree=\"1.3\">\n            <prosody rate=\"" ++ (if female then "0.95" else "0.9")
      ++ "\" pitch=\"" ++ (if female then "+3%" else "+2%")
      ++ "\" volume=\"+8%\">\n              <break time=\"50ms\"/>\n              ").data
      ++ embeddedText mode text
      ++ ("\n              <break time=\"200ms\"/>\n            </prosody>\n          </mstts:express-as>\n        </voice>\n      </speak>".data)

/-!
Derived notions used by the statements: which requests count as actively
synthesizing, the bookkeeping invariants of the queue machine, and the
`endSession` / `disconnect` handler of the server file, which stops the
connection's own handle (when the stored value is truthy) and then calls
`cleanupSynthesizer`.
-/

/-- A started request that is actively synthesizing: its provider callback
has not fired and its handle has not been stopped. -/
def Synthesizing (r : StartedReq) : Prop :=
  r.delivered = false ∧ r.interrupted = false

/-- No logged callback invocation belongs to the given request id. -/
def noEv (rid : Nat) (evs : List CbEvent) : Prop :=
  ∀ e ∈ evs, e.rid ≠ rid

/-- The ids of all started requests. -/
def startedRids (s : TTSState) : List Nat :=
  s.started.map StartedReq.rid

/-- Basic bookkeeping invariant, preserved by every step: request ids are
pairwise distinct and below the id supply, queued requests have never had
a callback invoked, and every logged event belongs to an already-issued
id. -/
def Inv0 (s : TTSState) : Prop :=
  (s.pending ++ startedRids s).Nodup ∧
  (∀ rid ∈ s.pending, rid < s.nextId) ∧
  (∀ r ∈ s.started, r.rid < s.nextId) ∧
  (∀ rid ∈ s.pending, noEv rid s.events) ∧
  (∀ e ∈ s.events, e.rid < s.nextId)

/-- Invariant of disciplined traces: on top of `Inv0`, cleanup has run for
a request exactly when it was delivered or stopped, at most one started
request is uncleaned, `isSynthesizerBusy` is set exactly while some
request is uncleaned, every request has received `onComplete` exactly once
if its cleanup ran and never otherwise, and a stopped or undelivered
request has received no audio chunk. -/
def InvD (s : TTSState) : Prop :=
  Inv0 s ∧
  (∀ r ∈ s.started, r.cleaned = (r.delivered || r.interrupted)) ∧
  (∀ r ∈ s.started, ∀ q ∈ s.started, r.cleaned = false → q.cleaned = false → r = q) ∧
  (s.busy = true ↔ ∃ r ∈ s.started, r.cleaned = false) ∧
  (∀ r ∈ s.started, s.events.count (CbEvent.complete r.rid) = if r.cleaned then 1 else 0) ∧
  (∀ r ∈ s.started, r.interrupted = true → s.events.count (CbEvent.chunk r.rid) = 0) ∧
  (∀ r ∈ s.started, r.delivered = false → s.events.count (CbEvent.chunk r.rid) = 0)

/-- Calling `.stop()` on whatever a `textToSpeech` call returned, guarded
by truthiness as in the server handlers (`if (synthesizer) synthesizer.stop()`):
a stored `undefined` (busy-path return) is skipped, a no-op handle does
nothing. -/
def stopHandleRet (s : TTSState) : TTSRet → TTSState
  | .handle rid => doStop s rid
  | _ => s

/-- The `endSession` and `disconnect` handlers' effect on the synthesis
module: stop the connection's stored handle if any, then
`cleanupSynthesizer()`. -/
def endSessionStep (s : TTSState) (h : Option TTSRet) : TTSState :=
  cleanupSynthFn (match h with
    | some ret => stopHandleRet s ret
    | none => s)

/-- A request id that is dead: issued in the past, no longer queued or
started, and without any logged callback. Dead ids stay dead. -/
def ridDead (rid : Nat) (s : TTSState) : Prop :=
  rid < s.nextId ∧ rid ∉ s.pending ∧ rid ∉ startedRids s ∧ noEv rid s.events

/-!
Helper lemmas.
-/

theorem markReq_markReq (l : List StartedReq) (rid : Nat) (f g : StartedReq → StartedReq)
    (hg : ∀ r, (g r).rid = r.rid) :
    markReq rid f (markReq rid g l) = markReq rid (fun r => f (g r)) l := by
  unfold markReq
  rw [List.map_map]
  apply List.map_congr_left
  intro r _
  by_cases h : r.rid = rid
  · simp [Function.comp, h, hg]
  · simp [Function.comp, h]

theorem find?_markReq (l : List StartedReq) (rid : Nat) (f : StartedReq → StartedReq)
    (hf : ∀ r, (f r).rid = r.rid) :
    (markReq rid f l).find? (fun r => r.rid == rid)
      = (l.find? (fun r => r.rid == rid)).map (fun r => if r.rid = rid then f r else r) := by
  induction l with
  | nil => rfl
  | cons x xs ih =>
    by_cases hx : x.rid = rid
    · rw [markReq, List.map_cons]
      rw [if_pos hx]
      rw [List.find?_cons_of_pos _ (by simp [hf, hx])]
      rw [List.find?_cons_of_pos _ (by simp [hx])]
      simp [hx]
    · rw [markReq, List.map_cons, if_neg hx]
      rw [List.find?_cons_of_neg _ (by simp [hx])]
      rw [List.find?_cons_of_neg _ (by simp [hx])]
      exact ih

theorem findReq_rid (s : TTSState) (rid : Nat) (r : StartedReq)
    (h : findReq s rid = some r) : r.rid = rid := by
  have := List.find?_some h
  simpa using this

theorem doStop_not_found (s : TTSState) (rid : Nat) (h : findReq s rid = none) :
    doStop s rid = s := by
  unfold doStop
  rw [h]

theorem doStop_already_interrupted (s : TTSState) (rid : Nat) (r : StartedReq)
    (h : findReq s rid = some r) (hi : r.interrupted = true) :
    doStop s rid = s := by
  unfold doStop
  rw [h]
  exact if_pos hi

theorem doStop_first (s : TTSState) (rid : Nat) (r : StartedReq)
    (h : findReq s rid = some r) (hi : r.interrupted = false) :
    doStop s rid
      = cleanupFn
          { s with started := markReq rid (fun x => { x with interrupted := true }) s.started }
          rid := by
  unfold doStop
  rw [h]
  exact if_neg (by simp [hi])

/-- C8: `stop()` on a synthesis handle is idempotent — calling it a second
time (and hence any further number of times, also after natural
completion) leaves the module state, the queue, and the log of callback
invocations exactly as after the first call, because the closure flag
`isInterrupted` short-circuits every later call. -/
theorem c8_stop_idempotent (s : TTSState) (rid : Nat) :
    doStop (doStop s rid) rid = doStop s rid := by
  rcases hf : findReq s rid with _ | r
  · rw [doStop_not_found s rid hf]
    exact doStop_not_found s rid hf
  · by_cases hi : r.interrupted = true
    · rw [doStop_already_interrupted s rid r hf hi]
      exact doStop_already_interrupted s rid r hf hi
    · have hi' : r.interrupted = false := by
        cases hr : r.interrupted
        · rfl
        · exact absurd hr hi
      have h1 := doStop_first s rid r hf hi'
      have hr : r.rid = rid := findReq_rid s rid r hf
      have hstarted : (doStop s rid).started
          = markReq rid
              (fun x => { x with interrupted := true, cleaned := true }) s.started := by
        rw [h1]
        show markReq rid (fun x => { x with cleaned := true })
            (markReq rid (fun x => { x with interrupted := true }) s.started) = _
        rw [markReq_markReq s.started rid
              (fun x => { x with cleaned := true })
              (fun x => { x with interrupted := true }) (fun _ => rfl)]
      have hfind : findReq (doStop s rid) rid
          = some { r with interrupted := true, cleaned := true } := by
        show (doStop s rid).started.find? (fun x => x.rid == rid) = _
        rw [hstarted]
        rw [find?_markReq s.started rid
              (fun x => { x with interrupted := true, cleaned := true }) (fun _ => rfl)]
        show (findReq s rid).map _ = _
        rw [hf]
        simp [hr]
      exact doStop_already_interrupted (doStop s rid) rid _ hfind rfl

/-- C2 counterexample: the claim that every `textToSpeech` call returns a
handle, including when the queue is busy, is false — after one submission
the synthesizer is busy, and a second call takes the `queueRequest` path,
whose value (`return queueRequest(...)`) is `undefined` because
`queueRequest` returns nothing: the caller gets no handle and no `stop`. -/
theorem c2_counterexample :
    ¬ (∀ evs s, run evs = some s → (textToSpeech true true s).2 ≠ TTSRet.noRet) := by
  intro h
  exact h [Ev.submit]
    { nextId := 1, busy := true, processing := false, pending := [],
      started := [⟨0, false, false, false⟩], timers := 0, synthAlive := true, events := [] }
    (by decide) (by decide)

/-- C2 amended: a `textToSpeech` call with valid text and credentials
returns a handle synchronously only on the idle path; when the synthesizer
is busy the request is appended to the pending queue and the call returns
`undefined` (no handle at all), so a queued request cannot be removed or
stopped through a returned handle. -/
theorem c2_amended (s : TTSState) :
    ((textToSpeech true true s).2 = TTSRet.noRet ↔ s.busy = true) ∧
    (s.busy = true →
      (textToSpeech true true s).1.pending = s.pending ++ [s.nextId] ∧
      (textToSpeech true true s).1.started = s.started) ∧
    (s.busy = false → (textToSpeech true true s).2 = TTSRet.handle s.nextId) := by
  unfold textToSpeech
  cases hb : s.busy <;> simp [hb, startInternal]

/-- C2 amended, witness: at a concrete busy state the call queues the
request and returns no handle; at the initial state it returns a handle. -/
theorem c2_amended_witness :
    (textToSpeech true true
        { nextId := 1, busy := true, processing := false, pending := [],
          started := [⟨0, false, false, false⟩], timers := 0,
          synthAlive := true, events := [] }).1.pending = [] ++ [1] ∧
    (textToSpeech true true initState).2 = TTSRet.handle 0 :=
  ⟨((c2_amended _).2.1 rfl).1, (c2_amended initState).2.2 rfl⟩

theorem pushUserMsg_length_le (h : List Entry) (t : List Char) :
    (pushUserMsg h t).length ≤ 12 := by
  unfold pushUserMsg
  by_cases hl : (h ++ [Entry.mk Role.user (t.take 500)]).length > 12
  · rw [if_pos hl, List.length_drop]
    omega
  · rw [if_neg hl]
    omega

theorem runExchange_length_le (h : List Entry) (x : List Char × Option (List Char))
    (hh : h.length ≤ 13) : (runExchange h x).length ≤ 13 := by
  unfold runExchange
  rcases x with ⟨t, _ | reply⟩
  · exact le_trans (pushUserMsg_length_le h t) (by omega)
  · show (pushAssistantMsg (pushUserMsg h t) reply).length ≤ 13
    unfold pushAssistantMsg
    rw [List.length_append]
    have := pushUserMsg_length_le h t
    simp
    omega

theorem foldl_runExchange_length_le (xs : List (List Char × Option (List Char))) :
    ∀ h : List Entry, h.length ≤ 13 → (xs.foldl runExchange h).length ≤ 13 := by
  induction xs with
  | nil => intro h hh; exact hh
  | cons x xs ih =>
    intro h hh
    exact ih (runExchange h x) (runExchange_length_le h x hh)

/-- C5 counterexample: the claim that the conversation history never
exceeds 12 entries is false — the handler truncates only after the user
push, not after the assistant push, so from the seventh successful
exchange on the history holds 13 entries. -/
theorem c5_counterexample :
    ¬ ((runExchanges (List.replicate 7 ("hi there".data, some ("ok".data)))).length ≤ 12) := by
  decide

/-- C5 amended: the conversation history never exceeds 13 entries; it is
at most 12 at the instant the user push has been truncated (the point at
which the completion client is called), and truncation evicts the oldest
entries first — the truncated history is a suffix of the pushed one. -/
theorem c5_amended (xs : List (List Char × Option (List Char))) :
    (runExchanges xs).length ≤ 13 ∧
    ∀ h t, (pushUserMsg h t).length ≤ 12 ∧
      List.IsSuffix (pushUserMsg h t) (h ++ [Entry.mk Role.user (t.take 500)]) := by
  constructor
  · exact foldl_runExchange_length_le xs [] (by simp)
  · intro h t
    refine ⟨pushUserMsg_length_le h t, ?_⟩
    unfold pushUserMsg
    by_cases hl : (h ++ [Entry.mk Role.user (t.take 500)]).length > 12
    · rw [if_pos hl]
      exact List.drop_suffix _ _
    · rw [if_neg hl]

/-- C6 counterexample: the claim that an utterance is processed only if
the session is active is false — the handler never reads `isActive`, so a
session that exists but is inactive still triggers the completion call,
while the spec-side condition rejects it. -/
theorem c6_counterexample :
    (userSpeechStep true false (some ("hello".data)) []).completionCalled = true ∧
    utteranceSpecCond true false (some ("hello".data)) = false := by
  constructor
  · decide
  · decide

/-- C6 amended: an utterance triggers the completion call exactly when the
session exists (active or not), the payload is a string, its raw length is
at most 1000 (the untrimmed length, not the trimmed one), and its trimmed
length is at least 2; every utterance failing this validation is silently
dropped — nothing is emitted and the history is unchanged. -/
theorem c6_amended (se active : Bool) (t : Option (List Char)) (hist : List Entry) :
    (utteranceAccepted se active t
      = (se && (match t with
          | some u => decide (u.length ≤ 1000) && decide (2 ≤ (jsTrim u).length)
          | none => false))) ∧
    (utteranceAccepted se active t = false →
      userSpeechStep se active t hist
        = { newHistory := hist, completionCalled := false, droppedWithEmit := false }) := by
  constructor
  · cases t with
    | none => simp [utteranceAccepted]
    | some u =>
      cases se with
      | false => simp [utteranceAccepted]
      | true =>
        show (!(decide (u = [])) && !(decide ((jsTrim u).length = 0))
            && !(decide (u.length > 1000)) && !(decide ((jsTrim u).length < 2))) = _
        simp only [← decide_not, ← Bool.decide_and, Bool.true_and, decide_eq_decide]
        constructor
        · rintro ⟨⟨⟨_, _⟩, h3⟩, h4⟩
          omega
        · rintro ⟨h1, h2⟩
          refine ⟨⟨⟨?_, by omega⟩, by omega⟩, by omega⟩
          intro he
          subst he
          exact absurd h2 (by decide)
  · intro h
    unfold userSpeechStep
    rw [h]
    simp

/-- C6 amended, witness: the empty utterance is silently dropped at a
concrete input — no completion call, no history mutation, no emission. -/
theorem c6_amended_witness :
    userSpeechStep true true (some ("".data)) [Entry.mk Role.user ("x".data)]
      = { newHistory := [Entry.mk Role.user ("x".data)],
          completionCalled := false, droppedWithEmit := false } :=
  (c6_amended true true (some ("".data)) [Entry.mk Role.user ("x".data)]).2 (by decide)

theorem getD_mem_of_lt (l : List String) (n : Nat) (d : String) (h : n < l.length) :
    l.getD n d ∈ l := by
  induction l generalizing n with
  | nil => exact absurd h (by simp)
  | cons x xs ih =>
    cases n with
    | zero => exact List.mem_cons_self x xs
    | succ m =>
      have : xs.getD m d ∈ xs := ih m (by simpa using h)
      exact List.mem_cons_of_mem x this

/-- C7: the completion client never raises and always returns a string —
missing credentials yield the one fixed fallback, every caught exception
(including the 8-second abort and a malformed `content`) yields one of the
pre-defined empathetic fallback strings selected by the random draw, a
non-ok HTTP status and a malformed response shape yield their fixed
fallback strings, and a successful call returns the trimmed content. -/
theorem c7_completion_total (hasKey : Bool) (outcome : ApiOutcome) (rand : Nat) :
    (hasKey = false → getTherapistResponse hasKey outcome rand = noKeyFallback) ∧
    (hasKey = true → (outcome = ApiOutcome.throws ∨ outcome = ApiOutcome.badContent) →
      getTherapistResponse hasKey outcome rand ∈ fallbackResponses) ∧
    (hasKey = true → outcome = ApiOutcome.httpError →
      getTherapistResponse hasKey outcome rand = httpErrorFallback) ∧
    (hasKey = true → outcome = ApiOutcome.badShape →
      getTherapistResponse hasKey outcome rand = badShapeFallback) ∧
    (∀ content, hasKey = true → outcome = ApiOutcome.success content →
      getTherapistResponse hasKey outcome rand = content.trim) := by
  refine ⟨?_, ?_, ?_, ?_, ?_⟩
  · intro h
    simp [getTherapistResponse, h]
  · intro hk ho
    have hmod : rand % fallbackResponses.length < fallbackResponses.length :=
      Nat.mod_lt _ (by decide)
    rcases ho with ho | ho <;>
      · subst ho
        simp only [getTherapistResponse, hk, attemptResponse]
        exact getD_mem_of_lt _ _ _ hmod
  · intro hk ho
    subst ho
    simp [getTherapistResponse, hk, attemptResponse]
  · intro hk ho
    subst ho
    simp [getTherapistResponse, hk, attemptResponse]
  · intro content hk ho
    subst ho
    simp [getTherapistResponse, hk, attemptResponse]

/-- C7 witness: concrete instances — no key gives the fixed fallback, and
a thrown request gives a member of the fallback pool. -/
theorem c7_completion_total_witness :
    getTherapistResponse false ApiOutcome.throws 0 = noKeyFallback ∧
    getTherapistResponse true ApiOutcome.throws 3 ∈ fallbackResponses :=
  ⟨(c7_completion_total false ApiOutcome.throws 0).1 rfl,
   (c7_completion_total true ApiOutcome.throws 3).2.1 rfl (Or.inl rfl)⟩

theorem replaceCharAll_cons (c : Char) (rep : List Char) (x : Char) (l : List Char) :
    replaceCharAll c rep (x :: l)
      = (if x = c then rep else [x]) ++ replaceCharAll c rep l := by
  simp [replaceCharAll]

theorem replaceCharAll_append (c : Char) (rep : List Char) (l m : List Char) :
    replaceCharAll c rep (l ++ m) = replaceCharAll c rep l ++ replaceCharAll c rep m := by
  simp [replaceCharAll]

theorem escapeXml_nil : escapeXml [] = [] := rfl

theorem escapeXml_cons (c : Char) (l : List Char) :
    escapeXml (c :: l) = escChar c ++ escapeXml l := by
  unfold escapeXml
  rw [replaceCharAll_cons, replaceCharAll_append, replaceCharAll_append]
  congr 1
  by_cases h1 : c = '&'
  · subst h1
    decide
  · by_cases h2 : c = '<'
    · subst h2
      rw [if_neg h1]
      decide
    · by_cases h3 : c = '>'
      · subst h3
        rw [if_neg h1]
        show replaceCharAll '>' _ (replaceCharAll '<' _ ['>']) = _
        rw [show replaceCharAll '<' ("&lt;".data) ['>'] = ['>'] by decide]
        decide
      · rw [if_neg h1]
        show replaceCharAll '>' _ (replaceCharAll '<' _ [c]) = _
        rw [show replaceCharAll '<' ("&lt;".data) [c] = [c] by
              simp [replaceCharAll, h2]]
        rw [show replaceCharAll '>' ("&gt;".data) [c] = [c] by
              simp [replaceCharAll, h3]]
        simp [escChar, h1, h2, h3]

theorem escapeXml_eq_flatMap (l : List Char) :
    escapeXml l = l.flatMap escChar := by
  induction l with
  | nil => rfl
  | cons c cs ih =>
    rw [escapeXml_cons, ih, List.flatMap_cons]

theorem angle_not_mem_escChar (a c : Char) (ha : a = '<' ∨ a = '>') :
    a ∉ escChar c := by
  unfold escChar
  by_cases h1 : c = '&'
  · rw [if_pos h1]
    rcases ha with h | h <;> subst h <;> decide
  · rw [if_neg h1]
    by_cases h2 : c = '<'
    · rw [if_pos h2]
      rcases ha with h | h <;> subst h <;> decide
    · rw [if_neg h2]
      by_cases h3 : c = '>'
      · rw [if_pos h3]
        rcases ha with h | h <;> subst h <;> decide
      · rw [if_neg h3]
        intro hm
        rcases List.mem_singleton.mp hm with rfl
        rcases ha with h | h
        · exact h2 h
        · exact h3 h

/-- C9: for every input text, every performance mode (and either voice
gender), the generated SSML embeds the input only through the escaping
pass: the escaped text replaces every single occurrence of `&`, `<`, `>`
by its entity (`escapeXml` equals the character-wise escaping map), and
the escaped text contains no raw `<` or `>` character at all, so the input
cannot break the surrounding markup structure. -/
theorem c9_markup_escaping (mode : PerfMode) (female : Bool) (text : List Char) :
    (∃ front back,
      generateOptimizedSSML mode female text = front ++ embeddedText mode text ++ back) ∧
    escapeXml text = text.flatMap escChar ∧
    ('<') ∉ escapeXml text ∧ ('>') ∉ escapeXml text := by
  refine ⟨?_, escapeXml_eq_flatMap text, ?_, ?_⟩
  · cases mode <;> exact ⟨_, _, rfl⟩
  · rw [escapeXml_eq_flatMap]
    intro hm
    rcases List.mem_flatMap.mp hm with ⟨c, _, hc⟩
    exact angle_not_mem_escChar '<' c (Or.inl rfl) hc
  · rw [escapeXml_eq_flatMap]
    intro hm
    rcases List.mem_flatMap.mp hm with ⟨c, _, hc⟩
    exact angle_not_mem_escChar '>' c (Or.inr rfl) hc

/-!
Machinery for the queue-machine claims: step inversion, shape lemmas, and
the invariants `Inv0` / `InvD`.
-/

theorem markReq_rids (l : List StartedReq) (rid : Nat) (f : StartedReq → StartedReq)
    (hf : ∀ r, (f r).rid = r.rid) :
    (markReq rid f l).map StartedReq.rid = l.map StartedReq.rid := by
  unfold markReq
  rw [List.map_map]
  apply List.map_congr_left
  intro r _
  by_cases h : r.rid = rid
  · simp [Function.comp, h, hf]
  · simp [Function.comp, h]

theorem mem_markReq (l : List StartedReq) (rid : Nat) (f : StartedReq → StartedReq)
    (q' : StartedReq) :
    q' ∈ markReq rid f l ↔ ∃ q ∈ l, q' = if q.rid = rid then f q else q := by
  unfold markReq
  rw [List.mem_map]
  constructor
  · rintro ⟨q, hq, rfl⟩
    exact ⟨q, hq, rfl⟩
  · rintro ⟨q, hq, rfl⟩
    exact ⟨q, hq, rfl⟩

theorem count_append_one (l : List CbEvent) (e x : CbEvent) :
    (l ++ [e]).count x = l.count x + if e = x then 1 else 0 := by
  simp [List.count_append, List.count_singleton']

theorem rids_unique (l : List StartedReq) (h : (l.map StartedReq.rid).Nodup)
    (r q : StartedReq) (hr : r ∈ l) (hq : q ∈ l) (heq : r.rid = q.rid) : r = q :=
  List.inj_on_of_nodup_map h hr hq heq

theorem findReq_mem (s : TTSState) (rid : Nat) (r : StartedReq)
    (h : findReq s rid = some r) : r ∈ s.started :=
  List.mem_of_find?_eq_some h

theorem step_submit_eq (s : TTSState) :
    step s Ev.submit = some (textToSpeech true true s).1 := rfl

theorem step_stop_inv (s s' : TTSState) (rid : Nat)
    (h : step s (Ev.stop rid) = some s') :
    (∃ r, findReq s rid = some r) ∧ s' = doStop s rid := by
  rw [show step s (Ev.stop rid)
        = (match findReq s rid with
           | some _ => some (doStop s rid)
           | none => none) from rfl] at h
  rcases hf : findReq s rid with _ | r
  · rw [hf] at h
    exact absurd h (by simp)
  · rw [hf] at h
    simp only [Option.some_inj] at h
    exact ⟨⟨r, rfl⟩, h.symm⟩

theorem step_result_inv (s s' : TTSState) (rid : Nat) (c a : Bool)
    (h : step s (Ev.result rid c a) = some s') :
    ∃ r, findReq s rid = some r ∧ r.delivered = false ∧ s' = deliverResult s rid c a := by
  rw [show step s (Ev.result rid c a)
        = (match findReq s rid with
           | some r => if r.delivered then none else some (deliverResult s rid c a)
           | none => none) from rfl] at h
  rcases hf : findReq s rid with _ | r
  · rw [hf] at h
    exact absurd h (by simp)
  · rw [hf] at h
    change (if r.delivered = true then none
            else some (deliverResult s rid c a)) = some s' at h
    by_cases hd : r.delivered
    · rw [if_pos hd] at h
      exact absurd h (by simp)
    · rw [if_neg hd] at h
      simp only [Option.some_inj] at h
      exact ⟨r, rfl, by simpa using hd, h.symm⟩

theorem step_fail_inv (s s' : TTSState) (rid : Nat)
    (h : step s (Ev.fail rid) = some s') :
    ∃ r, findReq s rid = some r ∧ r.delivered = false ∧ s' = deliverError s rid := by
  rw [show step s (Ev.fail rid)
        = (match findReq s rid with
           | some r => if r.delivered then none else some (deliverError s rid)
           | none => none) from rfl] at h
  rcases hf : findReq s rid with _ | r
  · rw [hf] at h
    exact absurd h (by simp)
  · rw [hf] at h
    change (if r.delivered = true then none
            else some (deliverError s rid)) = some s' at h
    by_cases hd : r.delivered
    · rw [if_pos hd] at h
      exact absurd h (by simp)
    · rw [if_neg hd] at h
      simp only [Option.some_inj] at h
      exact ⟨r, rfl, by simpa using hd, h.symm⟩

theorem step_drain_inv (s s' : TTSState) (h : step s Ev.drain = some s') :
    s.timers ≠ 0 ∧ s' = drainFn s := by
  rw [show step s Ev.drain
        = (if s.timers = 0 then none else some (drainFn s)) from rfl] at h
  by_cases ht : s.timers = 0
  · rw [if_pos ht] at h
    exact absurd h (by simp)
  · rw [if_neg ht] at h
    simp only [Option.some_inj] at h
    exact ⟨ht, h.symm⟩

theorem step_cleanupSynth_inv (s s' : TTSState) (h : step s Ev.cleanupSynth = some s') :
    s' = cleanupSynthFn s := by
  rw [show step s Ev.cleanupSynth = some (cleanupSynthFn s) from rfl] at h
  simp only [Option.some_inj] at h
  exact h.symm

theorem submit_busy_eq (s : TTSState) (hb : s.busy = true) :
    (textToSpeech true true s).1
      = { s with nextId := s.nextId + 1, pending := s.pending ++ [s.nextId] } := by
  unfold textToSpeech
  simp [hb]

theorem submit_idle_eq (s : TTSState) (hb : s.busy = false) :
    (textToSpeech true true s).1
      = startInternal { s with nextId := s.nextId + 1 } s.nextId := by
  unfold textToSpeech
  simp [hb]

theorem deliverResult_eq (s : TTSState) (rid : Nat) (c a : Bool) (r : StartedReq)
    (h : findReq s rid = some r) :
    deliverResult s rid c a
      = cleanupFn
          { s with
            started := markReq rid (fun x => { x with delivered := true }) s.started,
            events := s.events ++
              (if !r.interrupted && c then (if a then [CbEvent.chunk rid] else [])
               else if !c then [CbEvent.errorCb rid] else []) }
          rid := by
  unfold deliverResult
  rw [h]
  by_cases hi : r.interrupted
  · by_cases hc : c
    · simp [hi, hc]
    · simp [hi, hc]
  · by_cases hc : c
    · by_cases ha : a
      · simp [hi, hc, ha]
      · simp [hi, hc, ha]
    · simp [hi, hc]

theorem deliverError_eq (s : TTSState) (rid : Nat) :
    deliverError s rid
      = cleanupFn
          { s with
            started := markReq rid (fun x => { x with delivered := true }) s.started,
            events := s.events ++ [CbEvent.errorCb rid] }
          rid := rfl

theorem inv0_initState : Inv0 initState := by
  refine ⟨?_, ?_, ?_, ?_, ?_⟩ <;> simp [initState, startedRids, noEv]

theorem inv0_cleanup_shape (s : TTSState) (rid : Nat) (f : StartedReq → StartedReq)
    (hf : ∀ x, (f x).rid = x.rid) (Δ : List CbEvent)
    (hΔ : ∀ e ∈ Δ, CbEvent.rid e = rid)
    (r : StartedReq) (hr : r ∈ s.started) (hrid : r.rid = rid)
    (hInv : Inv0 s) :
    Inv0 { s with busy := false,
                  started := markReq rid f s.started,
                  events := (s.events ++ Δ) ++ [CbEvent.complete rid],
                  timers := s.timers + 1 } := by
  obtain ⟨hnd, hpb, hsb, hpe, heb⟩ := hInv
  have hmem : rid ∈ startedRids s := by
    rw [← hrid]
    exact List.mem_map_of_mem StartedReq.rid hr
  have hrb : rid < s.nextId := by
    rw [← hrid]
    exact hsb r hr
  have hdisj : s.pending.Disjoint (startedRids s) := (List.nodup_append.mp hnd).2.2
  refine ⟨?_, ?_, ?_, ?_, ?_⟩
  · show (s.pending ++ (markReq rid f s.started).map StartedReq.rid).Nodup
    rw [markReq_rids s.started rid f hf]
    exact hnd
  · exact hpb
  · intro q' hq'
    rcases (mem_markReq s.started rid f q').mp hq' with ⟨q, hq, rfl⟩
    by_cases h : q.rid = rid
    · rw [if_pos h, hf, h]
      exact hrb
    · rw [if_neg h]
      exact hsb q hq
  · intro p hp e he
    rcases List.mem_append.mp he with he | he
    · rcases List.mem_append.mp he with he | he
      · exact hpe p hp e he
      · rw [hΔ e he]
        intro hcon
        exact hdisj hp (hcon ▸ hmem)
    · rcases List.mem_singleton.mp he with rfl
      show rid ≠ p
      intro hcon
      exact hdisj hp (hcon ▸ hmem)
  · intro e he
    rcases List.mem_append.mp he with he | he
    · rcases List.mem_append.mp he with he | he
      · exact heb e he
      · rw [hΔ e he]
        exact hrb
    · rcases List.mem_singleton.mp he with rfl
      exact hrb

theorem inv0_submit_busy (s : TTSState) (hb : s.busy = true) (hInv : Inv0 s) :
    Inv0 { s with nextId := s.nextId + 1, pending := s.pending ++ [s.nextId] } := by
  obtain ⟨hnd, hpb, hsb, hpe, heb⟩ := hInv
  obtain ⟨hnp, hns, hdisj⟩ := List.nodup_append.mp hnd
  refine ⟨?_, ?_, ?_, ?_, ?_⟩
  · show ((s.pending ++ [s.nextId]) ++ startedRids s).Nodup
    rw [List.nodup_append]
    refine ⟨?_, hns, ?_⟩
    · rw [List.nodup_append]
      refine ⟨hnp, by simp, ?_⟩
      intro x hx hx'
      rcases List.mem_singleton.mp hx' with rfl
      exact absurd (hpb _ hx) (by omega)
    · intro x hx hx'
      rcases List.mem_append.mp hx with hx | hx
      · exact hdisj hx hx'
      · rcases List.mem_singleton.mp hx with rfl
        rcases List.mem_map.mp hx' with ⟨q, hq, hq'⟩
        have := hsb q hq
        omega
  · show ∀ rid ∈ s.pending ++ [s.nextId], rid < s.nextId + 1
    intro rid hrid
    rcases List.mem_append.mp hrid with h | h
    · have := hpb rid h
      omega
    · rcases List.mem_singleton.mp h with rfl
      omega
  · show ∀ r ∈ s.started, r.rid < s.nextId + 1
    intro q hq
    have := hsb q hq
    omega
  · show ∀ p ∈ s.pending ++ [s.nextId], noEv p s.events
    intro p hp e he
    rcases List.mem_append.mp hp with h | h
    · exact hpe p h e he
    · rcases List.mem_singleton.mp h with rfl
      have := heb e he
      omega
  · show ∀ e ∈ s.events, CbEvent.rid e < s.nextId + 1
    intro e he
    have := heb e he
    omega

theorem inv0_start_fresh (s : TTSState) (hInv : Inv0 s) :
    Inv0 (startInternal { s with nextId := s.nextId + 1 } s.nextId) := by
  obtain ⟨hnd, hpb, hsb, hpe, heb⟩ := hInv
  obtain ⟨hnp, hns, hdisj⟩ := List.nodup_append.mp hnd
  refine ⟨?_, ?_, ?_, ?_, ?_⟩
  · show (s.pending
      ++ (s.started ++ [StartedReq.mk s.nextId false false false]).map StartedReq.rid).Nodup
    rw [List.map_append]
    rw [List.nodup_append]
    refine ⟨hnp, ?_, ?_⟩
    · rw [List.nodup_append]
      refine ⟨hns, by simp, ?_⟩
      intro x hx hx'
      simp only [List.map_cons, List.map_nil, List.mem_singleton] at hx'
      subst hx'
      rcases List.mem_map.mp hx with ⟨q, hq, hq'⟩
      have hlt := hsb q hq
      rw [hq'] at hlt
      omega
    · intro x hx hx'
      rcases List.mem_append.mp hx' with h | h
      · exact hdisj hx h
      · simp only [List.map_cons, List.map_nil, List.mem_singleton] at h
        subst h
        have := hpb _ hx
        omega
  · show ∀ rid ∈ s.pending, rid < s.nextId + 1
    intro rid hrid
    have := hpb rid hrid
    omega
  · show ∀ r ∈ s.started ++ [StartedReq.mk s.nextId false false false],
      r.rid < s.nextId + 1
    intro q hq
    rcases List.mem_append.mp hq with h | h
    · have := hsb q h
      omega
    · rcases List.mem_singleton.mp h with rfl
      show s.nextId < s.nextId + 1
      omega
  · show ∀ p ∈ s.pending, noEv p s.events
    intro p hp e he
    exact hpe p hp e he
  · show ∀ e ∈ s.events, CbEvent.rid e < s.nextId + 1
    intro e he
    have := heb e he
    omega

theorem inv0_drain_start (s : TTSState) (rid0 : Nat) (rest : List Nat)
    (hp : s.pending = rid0 :: rest) (hInv : Inv0 s) (t : Nat) (pr : Bool) :
    Inv0 (startInternal
      { s with timers := t, processing := pr, pending := rest } rid0) := by
  obtain ⟨hnd, hpb, hsb, hpe, heb⟩ := hInv
  rw [hp] at hnd hpb hpe
  refine ⟨?_, ?_, ?_, ?_, ?_⟩
  · show (rest
      ++ (s.started ++ [StartedReq.mk rid0 false false false]).map StartedReq.rid).Nodup
    rw [List.map_append]
    have hperm :
        ((rid0 :: rest) ++ s.started.map StartedReq.rid).Perm
          (rest ++ (s.started.map StartedReq.rid
            ++ [StartedReq.rid (StartedReq.mk rid0 false false false)])) := by
      rw [← List.append_assoc]
      show (rid0 :: (rest ++ s.started.map StartedReq.rid)).Perm _
      exact (List.perm_append_singleton rid0 _).symm
    have := hperm.nodup hnd
    simpa using this
  · show ∀ p ∈ rest, p < s.nextId
    intro p hpmem
    exact hpb p (List.mem_cons_of_mem rid0 hpmem)
  · show ∀ r ∈ s.started ++ [StartedReq.mk rid0 false false false], r.rid < s.nextId
    intro q hq
    rcases List.mem_append.mp hq with h | h
    · exact hsb q h
    · rcases List.mem_singleton.mp h with rfl
      exact hpb rid0 (List.mem_cons_self rid0 rest)
  · show ∀ p ∈ rest, noEv p s.events
    intro p hpmem e he
    exact hpe p (List.mem_cons_of_mem rid0 hpmem) e he
  · show ∀ e ∈ s.events, CbEvent.rid e < s.nextId
    exact heb

theorem inv0_cleanupSynth (s : TTSState) (hInv : Inv0 s) :
    Inv0 (cleanupSynthFn s) := by
  obtain ⟨hnd, hpb, hsb, hpe, heb⟩ := hInv
  refine ⟨?_, ?_, ?_, ?_, ?_⟩
  · show (([] : List Nat) ++ startedRids s).Nodup
    simp only [List.nil_append]
    exact (List.nodup_append.mp hnd).2.1
  · show ∀ p ∈ ([] : List Nat), p < s.nextId
    intro p hpmem
    exact absurd hpmem (List.not_mem_nil p)
  · exact hsb
  · show ∀ p ∈ ([] : List Nat), noEv p s.events
    intro p hpmem
    exact absurd hpmem (List.not_mem_nil p)
  · exact heb

theorem cleanupFn_mark_eq (s : TTSState) (rid : Nat) (g : StartedReq → StartedReq)
    (hg : ∀ x, (g x).rid = x.rid) (E : List CbEvent) :
    cleanupFn { s with started := markReq rid g s.started, events := E } rid
      = { s with busy := false,
                 started := markReq rid (fun x => { g x with cleaned := true }) s.started,
                 events := E ++ [CbEvent.complete rid],
                 timers := s.timers + 1 } := by
  unfold cleanupFn
  rw [markReq_markReq s.started rid (fun r => { r with cleaned := true }) g hg]

theorem resultDelta_rid (r : StartedReq) (rid : Nat) (c a : Bool) :
    ∀ e ∈ (if !r.interrupted && c then (if a then [CbEvent.chunk rid] else [])
           else if !c then [CbEvent.errorCb rid] else []),
      CbEvent.rid e = rid := by
  intro e he
  split_ifs at he <;> simp_all [CbEvent.rid]

theorem drainFn_eq (s : TTSState) :
    drainFn s
      = match s.pending with
        | [] => { s with timers := s.timers - 1, processing := false }
        | rid :: rest =>
          if s.busy then { s with timers := s.timers - 1, processing := false }
          else startInternal
            { s with timers := s.timers - 1, processing := true, pending := rest } rid := rfl

theorem inv0_step (s s' : TTSState) (e : Ev) (hInv : Inv0 s)
    (hstep : step s e = some s') : Inv0 s' := by
  cases e with
  | submit =>
    have hs' : s' = (textToSpeech true true s).1 := by
      rw [step_submit_eq] at hstep
      exact (Option.some_inj.mp hstep).symm
    by_cases hb : s.busy = true
    · rw [hs', submit_busy_eq s hb]
      exact inv0_submit_busy s hb hInv
    · have hb' : s.busy = false := by
        cases h : s.busy
        · rfl
        · exact absurd h hb
      rw [hs', submit_idle_eq s hb']
      exact inv0_start_fresh s hInv
  | stop rid =>
    obtain ⟨⟨r, hf⟩, hs'⟩ := step_stop_inv s s' rid hstep
    by_cases hi : r.interrupted = true
    · rw [hs', doStop_already_interrupted s rid r hf hi]
      exact hInv
    · have hi' : r.interrupted = false := by
        cases h : r.interrupted
        · rfl
        · exact absurd h hi
      have hr : r ∈ s.started := findReq_mem s rid r hf
      have hrid : r.rid = rid := findReq_rid s rid r hf
      have h0 := inv0_cleanup_shape s rid
        (fun x => { x with interrupted := true, cleaned := true })
        (fun _ => rfl) [] (by intro e he; exact absurd he (List.not_mem_nil e))
        r hr hrid hInv
      rw [List.append_nil] at h0
      rw [hs', doStop_first s rid r hf hi',
        cleanupFn_mark_eq s rid (fun x => { x with interrupted := true })
          (fun _ => rfl) s.events]
      exact h0
  | result rid c a =>
    obtain ⟨r, hf, hd, hs'⟩ := step_result_inv s s' rid c a hstep
    have hr : r ∈ s.started := findReq_mem s rid r hf
    have hrid : r.rid = rid := findReq_rid s rid r hf
    have h0 := inv0_cleanup_shape s rid
      (fun x => { x with delivered := true, cleaned := true })
      (fun _ => rfl)
      (if !r.interrupted && c then (if a then [CbEvent.chunk rid] else [])
       else if !c then [CbEvent.errorCb rid] else [])
      (resultDelta_rid r rid c a) r hr hrid hInv
    rw [hs', deliverResult_eq s rid c a r hf,
      cleanupFn_mark_eq s rid (fun x => { x with delivered := true })
        (fun _ => rfl)
        (s.events ++
          (if !r.interrupted && c then (if a then [CbEvent.chunk rid] else [])
           else if !c then [CbEvent.errorCb rid] else []))]
    exact h0
  | fail rid =>
    obtain ⟨r, hf, hd, hs'⟩ := step_fail_inv s s' rid hstep
    have hr : r ∈ s.started := findReq_mem s rid r hf
    have hrid : r.rid = rid := findReq_rid s rid r hf
    have h0 := inv0_cleanup_shape s rid
      (fun x => { x with delivered := true, cleaned := true })
      (fun _ => rfl) [CbEvent.errorCb rid]
      (by intro e he; rcases List.mem_singleton.mp he with rfl; rfl)
      r hr hrid hInv
    rw [hs', deliverError_eq s rid,
      cleanupFn_mark_eq s rid (fun x => { x with delivered := true })
        (fun _ => rfl) (s.events ++ [CbEvent.errorCb rid])]
    exact h0
  | drain =>
    obtain ⟨ht, hs'⟩ := step_drain_inv s s' hstep
    rw [hs', drainFn_eq]
    rcases hp : s.pending with _ | ⟨rid0, rest⟩
    · obtain ⟨h1, h2, h3, h4, h5⟩ := hInv
      rw [hp] at h1 h2 h4
      exact ⟨h1, h2, h3, h4, h5⟩
    · show Inv0 (if s.busy = true
          then { s with processing := false, pending := rid0 :: rest,
                        timers := s.timers - 1 }
          else startInternal
            { s with timers := s.timers - 1, processing := true, pending := rest } rid0)
      by_cases hb : s.busy = true
      · rw [if_pos hb]
        obtain ⟨h1, h2, h3, h4, h5⟩ := hInv
        rw [hp] at h1 h2 h4
        exact ⟨h1, h2, h3, h4, h5⟩
      · rw [if_neg hb]
        exact inv0_drain_start s rid0 rest hp hInv (s.timers - 1) true
  | cleanupSynth =>
    rw [step_cleanupSynth_inv s s' hstep]
    exact inv0_cleanupSynth s hInv

theorem runFrom_cons_some (s t : TTSState) (e : Ev) (es : List Ev)
    (h : step s e = some t) : runFrom s (e :: es) = runFrom t es := by
  show (match step s e with
        | some s' => runFrom s' es
        | none => none) = runFrom t es
  rw [h]

theorem runFromD_cons_some (s t : TTSState) (e : Ev) (es : List Ev)
    (h : stepD s e = some t) : runFromD s (e :: es) = runFromD t es := by
  show (match stepD s e with
        | some s' => runFromD s' es
        | none => none) = runFromD t es
  rw [h]

theorem stepD_some (s t : TTSState) (e : Ev) (h : stepD s e = some t) :
    step s e = some t ∧ evOk s e = true := by
  unfold stepD at h
  by_cases hok : evOk s e = true
  · rw [if_pos hok] at h
    exact ⟨h, hok⟩
  · rw [if_neg hok] at h
    exact absurd h (by simp)

theorem runFrom_preserve (P : TTSState → Prop)
    (hP : ∀ s e t, step s e = some t → P s → P t) :
    ∀ evs s s', runFrom s evs = some s' → P s → P s' := by
  intro evs
  induction evs with
  | nil =>
    intro s s' h hps
    rw [show runFrom s [] = some s from rfl] at h
    rw [← Option.some_inj.mp h]
    exact hps
  | cons e es ih =>
    intro s s' h hps
    rcases hst : step s e with _ | t
    · rw [show runFrom s (e :: es)
            = (match step s e with
               | some s'' => runFrom s'' es
               | none => none) from rfl, hst] at h
      exact absurd h (by simp)
    · rw [runFrom_cons_some s t e es hst] at h
      exact ih t s' h (hP s e t hst hps)

theorem runFromD_preserve (P : TTSState → Prop)
    (hP : ∀ s e t, step s e = some t → evOk s e = true → P s → P t) :
    ∀ evs s s', runFromD s evs = some s' → P s → P s' := by
  intro evs
  induction evs with
  | nil =>
    intro s s' h hps
    rw [show runFromD s [] = some s from rfl] at h
    rw [← Option.some_inj.mp h]
    exact hps
  | cons e es ih =>
    intro s s' h hps
    rcases hst : stepD s e with _ | t
    · rw [show runFromD s (e :: es)
            = (match stepD s e with
               | some s'' => runFromD s'' es
               | none => none) from rfl, hst] at h
      exact absurd h (by simp)
    · rw [runFromD_cons_some s t e es hst] at h
      obtain ⟨hstep, hok⟩ := stepD_some s t e hst
      exact ih t s' h (hP s e t hstep hok hps)

theorem inv0_run (evs : List Ev) (s : TTSState) (h : run evs = some s) : Inv0 s :=
  runFrom_preserve Inv0 (fun s e t hst hI => inv0_step s t e hI hst)
    evs initState s h inv0_initState

theorem count_three (A Δ : List CbEvent) (e x : CbEvent) :
    ((A ++ Δ) ++ [e]).count x = A.count x + Δ.count x + (if e = x then 1 else 0) := by
  simp [List.count_append, List.count_singleton', Nat.add_assoc]

theorem invD_cleanup_shape (s : TTSState) (rid : Nat) (f : StartedReq → StartedReq)
    (hf : ∀ x, (f x).rid = x.rid)
    (hfc : ∀ x, (f x).cleaned = true)
    (Δ : List CbEvent)
    (hΔrid : ∀ e ∈ Δ, CbEvent.rid e = rid)
    (hΔnc : CbEvent.complete rid ∉ Δ)
    (r : StartedReq) (hr : r ∈ s.started) (hrid : r.rid = rid)
    (hcl : r.cleaned = false)
    (hJ1f : (f r).cleaned = ((f r).delivered || (f r).interrupted))
    (hint : (f r).interrupted = true →
      s.events.count (CbEvent.chunk rid) = 0 ∧ CbEvent.chunk rid ∉ Δ)
    (hdel : (f r).delivered = false →
      s.events.count (CbEvent.chunk rid) = 0 ∧ CbEvent.chunk rid ∉ Δ)
    (hInv : InvD s) :
    InvD { s with busy := false,
                  started := markReq rid f s.started,
                  events := (s.events ++ Δ) ++ [CbEvent.complete rid],
                  timers := s.timers + 1 } := by
  obtain ⟨hI0, hJ1, hJ2, hJ3, hK1, hK2, hK3⟩ := hInv
  have hndm : (s.started.map StartedReq.rid).Nodup :=
    (List.nodup_append.mp hI0.1).2.1
  have huniq : ∀ q ∈ s.started, q.rid = rid → q = r := by
    intro q hq h
    exact rids_unique s.started hndm q r hq hr (h.trans hrid.symm)
  have hΔne : ∀ (x : CbEvent), CbEvent.rid x ≠ rid → Δ.count x = 0 := by
    intro x hx
    refine List.count_eq_zero.mpr ?_
    intro hmem
    exact hx (hΔrid x hmem)
  refine ⟨inv0_cleanup_shape s rid f hf Δ hΔrid r hr hrid hI0, ?_, ?_, ?_, ?_, ?_, ?_⟩
  · intro q' hq'
    rcases (mem_markReq s.started rid f q').mp hq' with ⟨q, hq, rfl⟩
    by_cases h : q.rid = rid
    · rw [if_pos h]
      rw [huniq q hq h]
      exact hJ1f
    · rw [if_neg h]
      exact hJ1 q hq
  · intro q1' h1' q2' h2' hc1 hc2
    rcases (mem_markReq s.started rid f q1').mp h1' with ⟨q1, hq1, rfl⟩
    rcases (mem_markReq s.started rid f q2').mp h2' with ⟨q2, hq2, rfl⟩
    by_cases h1 : q1.rid = rid
    · rw [if_pos h1] at hc1
      rw [hfc q1] at hc1
      exact absurd hc1 (by simp)
    · by_cases h2 : q2.rid = rid
      · rw [if_pos h2] at hc2
        rw [hfc q2] at hc2
        exact absurd hc2 (by simp)
      · rw [if_neg h1] at hc1 ⊢
        rw [if_neg h2] at hc2 ⊢
        rw [hJ2 q1 hq1 q2 hq2 hc1 hc2]
  · constructor
    · intro h
      exact absurd h (by simp)
    · rintro ⟨q', hq', hc⟩
      rcases (mem_markReq s.started rid f q').mp hq' with ⟨q, hq, rfl⟩
      by_cases h : q.rid = rid
      · rw [if_pos h] at hc
        rw [hfc q] at hc
        exact absurd hc (by simp)
      · rw [if_neg h] at hc
        have := hJ2 q hq r hr hc hcl
        exact absurd (this ▸ h) (by simp [hrid])
  · intro q' hq'
    rcases (mem_markReq s.started rid f q').mp hq' with ⟨q, hq, rfl⟩
    by_cases h : q.rid = rid
    · rw [if_pos h]
      rw [huniq q hq h]
      have hk := hK1 r hr
      rw [hrid] at hk
      rw [count_three, hf, hrid, hk, hcl]
      rw [List.count_eq_zero.mpr hΔnc]
      rw [hfc r]
      simp
    · rw [if_neg h]
      rw [count_three]
      rw [if_neg (by
        intro hcon
        have : rid = q.rid := by injection hcon
        exact h this.symm)]
      rw [hΔne (CbEvent.complete q.rid) (by
        show q.rid ≠ rid
        exact h)]
      rw [hK1 q hq]
      simp
  · intro q' hq' hqint
    rcases (mem_markReq s.started rid f q').mp hq' with ⟨q, hq, rfl⟩
    by_cases h : q.rid = rid
    · rw [if_pos h] at hqint ⊢
      rw [huniq q hq h] at hqint ⊢
      obtain ⟨h0, hnin⟩ := hint hqint
      rw [count_three, hf, hrid, h0]
      rw [List.count_eq_zero.mpr hnin]
      simp
    · rw [if_neg h] at hqint ⊢
      rw [count_three]
      rw [hK2 q hq hqint]
      rw [hΔne (CbEvent.chunk q.rid) (by
        show q.rid ≠ rid
        exact h)]
      simp
  · intro q' hq' hqdel
    rcases (mem_markReq s.started rid f q').mp hq' with ⟨q, hq, rfl⟩
    by_cases h : q.rid = rid
    · rw [if_pos h] at hqdel ⊢
      rw [huniq q hq h] at hqdel ⊢
      obtain ⟨h0, hnin⟩ := hdel hqdel
      rw [count_three, hf, hrid, h0]
      rw [List.count_eq_zero.mpr hnin]
      simp
    · rw [if_neg h] at hqdel ⊢
      rw [count_three]
      rw [hK3 q hq hqdel]
      rw [hΔne (CbEvent.chunk q.rid) (by
        show q.rid ≠ rid
        exact h)]
      simp

theorem invD_submit_busy (s : TTSState) (hb : s.busy = true) (hInv : InvD s) :
    InvD { s with nextId := s.nextId + 1, pending := s.pending ++ [s.nextId] } := by
  obtain ⟨hI0, hJ1, hJ2, hJ3, hK1, hK2, hK3⟩ := hInv
  exact ⟨inv0_submit_busy s hb hI0, hJ1, hJ2, hJ3, hK1, hK2, hK3⟩

theorem fresh_no_events (s : TTSState) (hI0 : Inv0 s) (x : CbEvent)
    (hx : CbEvent.rid x = s.nextId) : s.events.count x = 0 := by
  refine List.count_eq_zero.mpr ?_
  intro hmem
  have := hI0.2.2.2.2 x hmem
  omega

theorem invD_start_fresh (s : TTSState) (hb : s.busy = false) (hInv : InvD s) :
    InvD (startInternal { s with nextId := s.nextId + 1 } s.nextId) := by
  obtain ⟨hI0, hJ1, hJ2, hJ3, hK1, hK2, hK3⟩ := hInv
  have hnone : ∀ q ∈ s.started, q.cleaned = true := by
    intro q hq
    cases hc : q.cleaned
    · exact absurd (hJ3.mpr ⟨q, hq, hc⟩) (by simp [hb])
    · rfl
  refine ⟨inv0_start_fresh s hI0, ?_, ?_, ?_, ?_, ?_, ?_⟩
  · show ∀ q ∈ s.started ++ [StartedReq.mk s.nextId false false false], _
    intro q hq
    rcases List.mem_append.mp hq with h | h
    · exact hJ1 q h
    · rcases List.mem_singleton.mp h with rfl
      rfl
  · show ∀ q1 ∈ s.started ++ [StartedReq.mk s.nextId false false false], _
    intro q1 h1 q2 h2 hc1 hc2
    rcases List.mem_append.mp h1 with h1 | h1
    · exact absurd (hnone q1 h1) (by simp [hc1])
    · rcases List.mem_append.mp h2 with h2 | h2
      · exact absurd (hnone q2 h2) (by simp [hc2])
      · rw [List.mem_singleton.mp h1, List.mem_singleton.mp h2]
  · constructor
    · intro _
      exact ⟨StartedReq.mk s.nextId false false false,
        List.mem_append.mpr (Or.inr (List.mem_singleton.mpr rfl)), rfl⟩
    · intro _
      rfl
  · show ∀ q ∈ s.started ++ [StartedReq.mk s.nextId false false false], _
    intro q hq
    rcases List.mem_append.mp hq with h | h
    · exact hK1 q h
    · rcases List.mem_singleton.mp h with rfl
      show s.events.count (CbEvent.complete s.nextId) = if false = true then 1 else 0
      rw [fresh_no_events s hI0 (CbEvent.complete s.nextId) rfl]
      simp
  · show ∀ q ∈ s.started ++ [StartedReq.mk s.nextId false false false], _
    intro q hq hqi
    rcases List.mem_append.mp hq with h | h
    · exact hK2 q h hqi
    · rcases List.mem_singleton.mp h with rfl
      exact fresh_no_events s hI0 (CbEvent.chunk s.nextId) rfl
  · show ∀ q ∈ s.started ++ [StartedReq.mk s.nextId false false false], _
    intro q hq hqd
    rcases List.mem_append.mp hq with h | h
    · exact hK3 q h hqd
    · rcases List.mem_singleton.mp h with rfl
      exact fresh_no_events s hI0 (CbEvent.chunk s.nextId) rfl

theorem invD_drain_start (s : TTSState) (rid0 : Nat) (rest : List Nat)
    (hp : s.pending = rid0 :: rest) (hb : s.busy = false) (hInv : InvD s) :
    InvD (startInternal
      { s with timers := s.timers - 1, processing := true, pending := rest } rid0) := by
  obtain ⟨hI0, hJ1, hJ2, hJ3, hK1, hK2, hK3⟩ := hInv
  have hnone : ∀ q ∈ s.started, q.cleaned = true := by
    intro q hq
    cases hc : q.cleaned
    · exact absurd (hJ3.mpr ⟨q, hq, hc⟩) (by simp [hb])
    · rfl
  have hnoev : noEv rid0 s.events := by
    have := hI0.2.2.2.1 rid0
    rw [hp] at this
    exact this (List.mem_cons_self rid0 rest)
  have hzero : ∀ x : CbEvent, CbEvent.rid x = rid0 → s.events.count x = 0 := by
    intro x hx
    refine List.count_eq_zero.mpr ?_
    intro hmem
    exact hnoev x hmem hx
  refine ⟨inv0_drain_start s rid0 rest hp hI0 (s.timers - 1) true, ?_, ?_, ?_, ?_, ?_, ?_⟩
  · show ∀ q ∈ s.started ++ [StartedReq.mk rid0 false false false], _
    intro q hq
    rcases List.mem_append.mp hq with h | h
    · exact hJ1 q h
    · rcases List.mem_singleton.mp h with rfl
      rfl
  · show ∀ q1 ∈ s.started ++ [StartedReq.mk rid0 false false false], _
    intro q1 h1 q2 h2 hc1 hc2
    rcases List.mem_append.mp h1 with h1 | h1
    · exact absurd (hnone q1 h1) (by simp [hc1])
    · rcases List.mem_append.mp h2 with h2 | h2
      · exact absurd (hnone q2 h2) (by simp [hc2])
      · rw [List.mem_singleton.mp h1, List.mem_singleton.mp h2]
  · constructor
    · intro _
      exact ⟨StartedReq.mk rid0 false false false,
        List.mem_append.mpr (Or.inr (List.mem_singleton.mpr rfl)), rfl⟩
    · intro _
      rfl
  · show ∀ q ∈ s.started ++ [StartedReq.mk rid0 false false false], _
    intro q hq
    rcases List.mem_append.mp hq with h | h
    · exact hK1 q h
    · rcases List.mem_singleton.mp h with rfl
      show s.events.count (CbEvent.complete rid0) = if false = true then 1 else 0
      rw [hzero (CbEvent.complete rid0) rfl]
      simp
  · show ∀ q ∈ s.started ++ [StartedReq.mk rid0 false false false], _
    intro q hq hqi
    rcases List.mem_append.mp hq with h | h
    · exact hK2 q h hqi
    · rcases List.mem_singleton.mp h with rfl
      exact hzero (CbEvent.chunk rid0) rfl
  · show ∀ q ∈ s.started ++ [StartedReq.mk rid0 false false false], _
    intro q hq hqd
    rcases List.mem_append.mp hq with h | h
    · exact hK3 q h hqd
    · rcases List.mem_singleton.mp h with rfl
      exact hzero (CbEvent.chunk rid0) rfl

theorem evOk_stop_char (s : TTSState) (rid : Nat) (r : StartedReq)
    (hf : findReq s rid = some r) (hok : evOk s (Ev.stop rid) = true)
    (hi : r.interrupted = false) : r.cleaned = false := by
  rw [show evOk s (Ev.stop rid)
        = (match findReq s rid with
           | some r => !(r.cleaned && !r.interrupted)
           | none => true) from rfl, hf] at hok
  change (!(r.cleaned && !r.interrupted)) = true at hok
  rw [hi] at hok
  cases hc : r.cleaned
  · rfl
  · rw [hc] at hok
    exact absurd hok (by simp)

theorem evOk_result_char (s : TTSState) (rid : Nat) (c a : Bool) (r : StartedReq)
    (hf : findReq s rid = some r) (hok : evOk s (Ev.result rid c a) = true) :
    r.interrupted = false := by
  rw [show evOk s (Ev.result rid c a)
        = (match findReq s rid with
           | some r => !r.interrupted
           | none => true) from rfl, hf] at hok
  change (!r.interrupted) = true at hok
  simpa using hok

theorem evOk_fail_char (s : TTSState) (rid : Nat) (r : StartedReq)
    (hf : findReq s rid = some r) (hok : evOk s (Ev.fail rid) = true) :
    r.interrupted = false := by
  rw [show evOk s (Ev.fail rid)
        = (match findReq s rid with
           | some r => !r.interrupted
           | none => true) from rfl, hf] at hok
  change (!r.interrupted) = true at hok
  simpa using hok

theorem resultDelta_no_complete (r : StartedReq) (rid : Nat) (c a : Bool) :
    CbEvent.complete rid
      ∉ (if !r.interrupted && c then (if a then [CbEvent.chunk rid] else [])
         else if !c then [CbEvent.errorCb rid] else []) := by
  split_ifs <;> simp

theorem invD_stepD (s s' : TTSState) (e : Ev) (hInv : InvD s)
    (hstep : step s e = some s') (hok : evOk s e = true) : InvD s' := by
  cases e with
  | submit =>
    have hs' : s' = (textToSpeech true true s).1 := by
      rw [step_submit_eq] at hstep
      exact (Option.some_inj.mp hstep).symm
    by_cases hb : s.busy = true
    · rw [hs', submit_busy_eq s hb]
      exact invD_submit_busy s hb hInv
    · have hb' : s.busy = false := by
        cases h : s.busy
        · rfl
        · exact absurd h hb
      rw [hs', submit_idle_eq s hb']
      exact invD_start_fresh s hb' hInv
  | stop rid =>
    obtain ⟨⟨r, hf⟩, hs'⟩ := step_stop_inv s s' rid hstep
    by_cases hi : r.interrupted = true
    · rw [hs', doStop_already_interrupted s rid r hf hi]
      exact hInv
    · have hi' : r.interrupted = false := by
        cases h : r.interrupted
        · rfl
        · exact absurd h hi
      have hcl : r.cleaned = false := evOk_stop_char s rid r hf hok hi'
      have hr : r ∈ s.started := findReq_mem s rid r hf
      have hrid : r.rid = rid := findReq_rid s rid r hf
      have hdelF : r.delivered = false := by
        have := hInv.2.1 r hr
        rw [hcl, hi'] at this
        cases hd : r.delivered
        · rfl
        · rw [hd] at this
          exact absurd this (by simp)
      have hk3 : s.events.count (CbEvent.chunk rid) = 0 := by
        have := hInv.2.2.2.2.2.2 r hr hdelF
        rw [hrid] at this
        exact this
      have h0 := invD_cleanup_shape s rid
        (fun x => { x with interrupted := true, cleaned := true })
        (fun _ => rfl) (fun _ => rfl) []
        (by intro e he; exact absurd he (List.not_mem_nil e))
        (List.not_mem_nil _)
        r hr hrid hcl (by simp)
        (fun _ => ⟨hk3, List.not_mem_nil _⟩)
        (fun _ => ⟨hk3, List.not_mem_nil _⟩)
        hInv
      rw [List.append_nil] at h0
      rw [hs', doStop_first s rid r hf hi',
        cleanupFn_mark_eq s rid (fun x => { x with interrupted := true })
          (fun _ => rfl) s.events]
      exact h0
  | result rid c a =>
    obtain ⟨r, hf, hd, hs'⟩ := step_result_inv s s' rid c a hstep
    have hi : r.interrupted = false := evOk_result_char s rid c a r hf hok
    have hr : r ∈ s.started := findReq_mem s rid r hf
    have hrid : r.rid = rid := findReq_rid s rid r hf
    have hcl : r.cleaned = false := by
      have := hInv.2.1 r hr
      rw [hd, hi] at this
      simpa using this
    have h0 := invD_cleanup_shape s rid
      (fun x => { x with delivered := true, cleaned := true })
      (fun _ => rfl) (fun _ => rfl)
      (if !r.interrupted && c then (if a then [CbEvent.chunk rid] else [])
       else if !c then [CbEvent.errorCb rid] else [])
      (resultDelta_rid r rid c a)
      (resultDelta_no_complete r rid c a)
      r hr hrid hcl (by simp)
      (fun h => absurd h (by simp [hi]))
      (fun h => absurd h (by simp))
      hInv
    rw [hs', deliverResult_eq s rid c a r hf,
      cleanupFn_mark_eq s rid (fun x => { x with delivered := true })
        (fun _ => rfl)
        (s.events ++
          (if !r.interrupted && c then (if a then [CbEvent.chunk rid] else [])
           else if !c then [CbEvent.errorCb rid] else []))]
    exact h0
  | fail rid =>
    obtain ⟨r, hf, hd, hs'⟩ := step_fail_inv s s' rid hstep
    have hi : r.interrupted = false := evOk_fail_char s rid r hf hok
    have hr : r ∈ s.started := findReq_mem s rid r hf
    have hrid : r.rid = rid := findReq_rid s rid r hf
    have hcl : r.cleaned = false := by
      have := hInv.2.1 r hr
      rw [hd, hi] at this
      simpa using this
    have h0 := invD_cleanup_shape s rid
      (fun x => { x with delivered := true, cleaned := true })
      (fun _ => rfl) (fun _ => rfl) [CbEvent.errorCb rid]
      (by intro e he; rcases List.mem_singleton.mp he with rfl; rfl)
      (by simp)
      r hr hrid hcl (by simp)
      (fun h => absurd h (by simp [hi]))
      (fun h => absurd h (by simp))
      hInv
    rw [hs', deliverError_eq s rid,
      cleanupFn_mark_eq s rid (fun x => { x with delivered := true })
        (fun _ => rfl) (s.events ++ [CbEvent.errorCb rid])]
    exact h0
  | drain =>
    obtain ⟨ht, hs'⟩ := step_drain_inv s s' hstep
    obtain ⟨hI0, hJ1, hJ2, hJ3, hK1, hK2, hK3⟩ := hInv
    rw [hs', drainFn_eq]
    rcases hp : s.pending with _ | ⟨rid0, rest⟩
    · obtain ⟨h1, h2, h3, h4, h5⟩ := hI0
      rw [hp] at h1 h2 h4
      exact ⟨⟨h1, h2, h3, h4, h5⟩, hJ1, hJ2, hJ3, hK1, hK2, hK3⟩
    · show InvD (if s.busy = true
          then { s with processing := false, pending := rid0 :: rest,
                        timers := s.timers - 1 }
          else startInternal
            { s with timers := s.timers - 1, processing := true, pending := rest } rid0)
      by_cases hb : s.busy = true
      · rw [if_pos hb]
        obtain ⟨h1, h2, h3, h4, h5⟩ := hI0
        rw [hp] at h1 h2 h4
        exact ⟨⟨h1, h2, h3, h4, h5⟩, hJ1, hJ2, hJ3, hK1, hK2, hK3⟩
      · rw [if_neg hb]
        have hb' : s.busy = false := by
          cases h : s.busy
          · rfl
          · exact absurd h hb
        exact invD_drain_start s rid0 rest hp hb'
          ⟨hI0, hJ1, hJ2, hJ3, hK1, hK2, hK3⟩
  | cleanupSynth =>
    rw [show evOk s Ev.cleanupSynth = false from rfl] at hok
    exact absurd hok (by simp)

theorem invD_initState : InvD initState := by
  refine ⟨inv0_initState, ?_, ?_, ?_, ?_, ?_, ?_⟩ <;> simp [initState]

theorem invD_runD (evs : List Ev) (s : TTSState) (h : runD evs = some s) : InvD s :=
  runFromD_preserve InvD (fun s e t hst hok hI => invD_stepD s t e hI hst hok)
    evs initState s h invD_initState

theorem mem_markReq_self (l : List StartedReq) (rid : Nat) (f : StartedReq → StartedReq)
    (r : StartedReq) (hr : r ∈ l) :
    (if r.rid = rid then f r else r) ∈ markReq rid f l :=
  (mem_markReq l rid f _).mpr ⟨r, hr, rfl⟩

theorem mono_flags (r : StartedReq) (rid : Nat) (f : StartedReq → StartedReq)
    (hf : ∀ x, (f x).rid = x.rid)
    (hfi : ∀ x, x.interrupted = true → (f x).interrupted = true)
    (hfc : ∀ x, x.cleaned = true → (f x).cleaned = true)
    (hfd : ∀ x, x.delivered = true → (f x).delivered = true) :
    (if r.rid = rid then f r else r).rid = r.rid
      ∧ (r.interrupted = true → (if r.rid = rid then f r else r).interrupted = true)
      ∧ (r.cleaned = true → (if r.rid = rid then f r else r).cleaned = true)
      ∧ (r.delivered = true → (if r.rid = rid then f r else r).delivered = true) := by
  by_cases h : r.rid = rid
  · rw [if_pos h]
    exact ⟨hf r, hfi r, hfc r, hfd r⟩
  · rw [if_neg h]
    exact ⟨rfl, fun h => h, fun h => h, fun h => h⟩

theorem step_mono (s s' : TTSState) (e : Ev) (hstep : step s e = some s')
    (r : StartedReq) (hr : r ∈ s.started) :
    ∃ r' ∈ s'.started, r'.rid = r.rid
      ∧ (r.interrupted = true → r'.interrupted = true)
      ∧ (r.cleaned = true → r'.cleaned = true)
      ∧ (r.delivered = true → r'.delivered = true) := by
  cases e with
  | submit =>
    have hs' : s' = (textToSpeech true true s).1 := by
      rw [step_submit_eq] at hstep
      exact (Option.some_inj.mp hstep).symm
    by_cases hb : s.busy = true
    · rw [hs', submit_busy_eq s hb]
      exact ⟨r, hr, rfl, fun h => h, fun h => h, fun h => h⟩
    · have hb' : s.busy = false := by
        cases h : s.busy
        · rfl
        · exact absurd h hb
      rw [hs', submit_idle_eq s hb']
      exact ⟨r, List.mem_append.mpr (Or.inl hr), rfl, fun h => h, fun h => h, fun h => h⟩
  | stop rid =>
    obtain ⟨⟨q, hf⟩, hs'⟩ := step_stop_inv s s' rid hstep
    by_cases hi : q.interrupted = true
    · rw [hs', doStop_already_interrupted s rid q hf hi]
      exact ⟨r, hr, rfl, fun h => h, fun h => h, fun h => h⟩
    · have hi' : q.interrupted = false := by
        cases h : q.interrupted
        · rfl
        · exact absurd h hi
      rw [hs', doStop_first s rid q hf hi',
        cleanupFn_mark_eq s rid (fun x => { x with interrupted := true })
          (fun _ => rfl) s.events]
      refine ⟨_, mem_markReq_self s.started rid
        (fun x => { x with interrupted := true, cleaned := true }) r hr, ?_⟩
      exact mono_flags r rid
        (fun x => { x with interrupted := true, cleaned := true })
        (fun _ => rfl) (fun _ _ => rfl) (fun _ _ => rfl) (fun _ h => h)
  | result rid c a =>
    obtain ⟨q, hf, hd, hs'⟩ := step_result_inv s s' rid c a hstep
    rw [hs', deliverResult_eq s rid c a q hf,
      cleanupFn_mark_eq s rid (fun x => { x with delivered := true })
        (fun _ => rfl)
        (s.events ++
          (if !q.interrupted && c then (if a then [CbEvent.chunk rid] else [])
           else if !c then [CbEvent.errorCb rid] else []))]
    refine ⟨_, mem_markReq_self s.started rid
      (fun x => { x with delivered := true, cleaned := true }) r hr, ?_⟩
    exact mono_flags r rid
      (fun x => { x with delivered := true, cleaned := true })
      (fun _ => rfl) (fun _ h => h) (fun _ _ => rfl) (fun _ _ => rfl)
  | fail rid =>
    obtain ⟨q, hf, hd, hs'⟩ := step_fail_inv s s' rid hstep
    rw [hs', deliverError_eq s rid,
      cleanupFn_mark_eq s rid (fun x => { x with delivered := true })
        (fun _ => rfl) (s.events ++ [CbEvent.errorCb rid])]
    refine ⟨_, mem_markReq_self s.started rid
      (fun x => { x with delivered := true, cleaned := true }) r hr, ?_⟩
    exact mono_flags r rid
      (fun x => { x with delivered := true, cleaned := true })
      (fun _ => rfl) (fun _ h => h) (fun _ _ => rfl) (fun _ _ => rfl)
  | drain =>
    obtain ⟨ht, hs'⟩ := step_drain_inv s s' hstep
    rw [hs', drainFn_eq]
    rcases hp : s.pending with _ | ⟨rid0, rest⟩
    · exact ⟨r, hr, rfl, fun h => h, fun h => h, fun h => h⟩
    · show ∃ r' ∈ (if s.busy = true
          then { s with processing := false, pending := rid0 :: rest,
                        timers := s.timers - 1 }
          else startInternal
            { s with timers := s.timers - 1, processing := true,
                     pending := rest } rid0).started, _
      by_cases hb : s.busy = true
      · rw [if_pos hb]
        exact ⟨r, hr, rfl, fun h => h, fun h => h, fun h => h⟩
      · rw [if_neg hb]
        exact ⟨r, List.mem_append.mpr (Or.inl hr), rfl,
          fun h => h, fun h => h, fun h => h⟩
  | cleanupSynth =>
    rw [step_cleanupSynth_inv s s' hstep]
    exact ⟨r, hr, rfl, fun h => h, fun h => h, fun h => h⟩

theorem runFromD_imp_runFrom :
    ∀ (evs : List Ev) (s s' : TTSState),
      runFromD s evs = some s' → runFrom s evs = some s' := by
  intro evs
  induction evs with
  | nil =>
    intro s s' h
    exact h
  | cons e es ih =>
    intro s s' h
    rcases hst : stepD s e with _ | t
    · rw [show runFromD s (e :: es)
            = (match stepD s e with
               | some t => runFromD t es
               | none => none) from rfl, hst] at h
      exact absurd h (by simp)
    · rw [runFromD_cons_some s t e es hst] at h
      obtain ⟨hstep, _⟩ := stepD_some s t e hst
      rw [runFrom_cons_some s t e es hstep]
      exact ih t s' h

theorem stopped_persists (rid : Nat) :
    ∀ (evs : List Ev) (s s' : TTSState), runFrom s evs = some s' →
      (∃ r ∈ s.started, r.rid = rid ∧ r.interrupted = true ∧ r.cleaned = true) →
      ∃ r' ∈ s'.started, r'.rid = rid ∧ r'.interrupted = true ∧ r'.cleaned = true := by
  refine runFrom_preserve _ ?_
  rintro s e t hst ⟨r, hr, hrid, hi, hc⟩
  obtain ⟨r', hr', hrid', hi', hc', _⟩ := step_mono s t e hst r hr
  exact ⟨r', hr', hrid'.trans hrid, hi' hi, hc' hc⟩

theorem count_delta_zero (Δ : List CbEvent) (x : CbEvent)
    (h : x ∉ Δ) : Δ.count x = 0 :=
  List.count_eq_zero.mpr h

theorem step_chunk_freeze (s s' : TTSState) (e : Ev) (hstep : step s e = some s')
    (hI0 : Inv0 s) (rid : Nat) (r : StartedReq) (hr : r ∈ s.started)
    (hrid : r.rid = rid) (hi : r.interrupted = true) :
    s'.events.count (CbEvent.chunk rid) = s.events.count (CbEvent.chunk rid) := by
  have hndm : (s.started.map StartedReq.rid).Nodup :=
    (List.nodup_append.mp hI0.1).2.1
  cases e with
  | submit =>
    have hs' : s' = (textToSpeech true true s).1 := by
      rw [step_submit_eq] at hstep
      exact (Option.some_inj.mp hstep).symm
    by_cases hb : s.busy = true
    · rw [hs', submit_busy_eq s hb]
    · have hb' : s.busy = false := by
        cases h : s.busy
        · rfl
        · exact absurd h hb
      rw [hs', submit_idle_eq s hb']
      rfl
  | stop rid' =>
    obtain ⟨⟨q, hf⟩, hs'⟩ := step_stop_inv s s' rid' hstep
    by_cases hqi : q.interrupted = true
    · rw [hs', doStop_already_interrupted s rid' q hf hqi]
    · have hqi' : q.interrupted = false := by
        cases h : q.interrupted
        · rfl
        · exact absurd h hqi
      rw [hs', doStop_first s rid' q hf hqi',
        cleanupFn_mark_eq s rid' (fun x => { x with interrupted := true })
          (fun _ => rfl) s.events]
      show (s.events ++ [CbEvent.complete rid']).count (CbEvent.chunk rid) = _
      rw [count_append_one]
      simp
  | result rid' c a =>
    obtain ⟨q, hf, hd, hs'⟩ := step_result_inv s s' rid' c a hstep
    have hq : q ∈ s.started := findReq_mem s rid' q hf
    have hqrid : q.rid = rid' := findReq_rid s rid' q hf
    have hchunk : CbEvent.chunk rid
        ∉ (if !q.interrupted && c then (if a then [CbEvent.chunk rid'] else [])
           else if !c then [CbEvent.errorCb rid'] else []) := by
      by_cases hrr : rid' = rid
      · have hqr : q = r :=
          rids_unique s.started hndm q r hq hr (by rw [hqrid, hrr, hrid])
        rw [hqr, hi]
        simp
      · split_ifs <;> simp <;> omega
    rw [hs', deliverResult_eq s rid' c a q hf,
      cleanupFn_mark_eq s rid' (fun x => { x with delivered := true })
        (fun _ => rfl)
        (s.events ++
          (if !q.interrupted && c then (if a then [CbEvent.chunk rid'] else [])
           else if !c then [CbEvent.errorCb rid'] else []))]
    show ((s.events ++ _) ++ [CbEvent.complete rid']).count (CbEvent.chunk rid) = _
    rw [count_three, count_delta_zero _ _ hchunk]
    simp
  | fail rid' =>
    obtain ⟨q, hf, hd, hs'⟩ := step_fail_inv s s' rid' hstep
    rw [hs', deliverError_eq s rid',
      cleanupFn_mark_eq s rid' (fun x => { x with delivered := true })
        (fun _ => rfl) (s.events ++ [CbEvent.errorCb rid'])]
    show ((s.events ++ [CbEvent.errorCb rid']) ++ [CbEvent.complete rid']).count
        (CbEvent.chunk rid) = _
    rw [count_three]
    simp
  | drain =>
    obtain ⟨ht, hs'⟩ := step_drain_inv s s' hstep
    rw [hs', drainFn_eq]
    rcases hp : s.pending with _ | ⟨rid0, rest⟩
    · rfl
    · show (if s.busy = true
          then { s with processing := false, pending := rid0 :: rest,
                        timers := s.timers - 1 }
          else startInternal
            { s with timers := s.timers - 1, processing := true,
                     pending := rest } rid0).events.count (CbEvent.chunk rid) = _
      by_cases hb : s.busy = true
      · rw [if_pos hb]
      · rw [if_neg hb]
        rfl
  | cleanupSynth =>
    rw [step_cleanupSynth_inv s s' hstep]
    rfl

theorem step_error_freeze (s s' : TTSState) (e : Ev) (hstep : step s e = some s')
    (rid : Nat) (hner : ∀ c a, e ≠ Ev.result rid c a) (hnef : e ≠ Ev.fail rid) :
    s'.events.count (CbEvent.errorCb rid) = s.events.count (CbEvent.errorCb rid) := by
  cases e with
  | submit =>
    have hs' : s' = (textToSpeech true true s).1 := by
      rw [step_submit_eq] at hstep
      exact (Option.some_inj.mp hstep).symm
    by_cases hb : s.busy = true
    · rw [hs', submit_busy_eq s hb]
    · have hb' : s.busy = false := by
        cases h : s.busy
        · rfl
        · exact absurd h hb
      rw [hs', submit_idle_eq s hb']
      rfl
  | stop rid' =>
    obtain ⟨⟨q, hf⟩, hs'⟩ := step_stop_inv s s' rid' hstep
    by_cases hqi : q.interrupted = true
    · rw [hs', doStop_already_interrupted s rid' q hf hqi]
    · have hqi' : q.interrupted = false := by
        cases h : q.interrupted
        · rfl
        · exact absurd h hqi
      rw [hs', doStop_first s rid' q hf hqi',
        cleanupFn_mark_eq s rid' (fun x => { x with interrupted := true })
          (fun _ => rfl) s.events]
      show (s.events ++ [CbEvent.complete rid']).count (CbEvent.errorCb rid) = _
      rw [count_append_one]
      simp
  | result rid' c a =>
    obtain ⟨q, hf, hd, hs'⟩ := step_result_inv s s' rid' c a hstep
    have hrr : rid' ≠ rid := by
      intro hcon
      exact hner c a (by rw [hcon])
    have herr : CbEvent.errorCb rid
        ∉ (if !q.interrupted && c then (if a then [CbEvent.chunk rid'] else [])
           else if !c then [CbEvent.errorCb rid'] else []) := by
      split_ifs <;> simp <;> omega
    rw [hs', deliverResult_eq s rid' c a q hf,
      cleanupFn_mark_eq s rid' (fun x => { x with delivered := true })
        (fun _ => rfl)
        (s.events ++
          (if !q.interrupted && c then (if a then [CbEvent.chunk rid'] else [])
           else if !c then [CbEvent.errorCb rid'] else []))]
    show ((s.events ++ _) ++ [CbEvent.complete rid']).count (CbEvent.errorCb rid) = _
    rw [count_three, count_delta_zero _ _ herr]
    simp
  | fail rid' =>
    obtain ⟨q, hf, hd, hs'⟩ := step_fail_inv s s' rid' hstep
    have hrr : rid' ≠ rid := by
      intro hcon
      exact hnef (by rw [hcon])
    rw [hs', deliverError_eq s rid',
      cleanupFn_mark_eq s rid' (fun x => { x with delivered := true })
        (fun _ => rfl) (s.events ++ [CbEvent.errorCb rid'])]
    show ((s.events ++ [CbEvent.errorCb rid']) ++ [CbEvent.complete rid']).count
        (CbEvent.errorCb rid) = _
    have herr : CbEvent.errorCb rid ∉ ([CbEvent.errorCb rid'] : List CbEvent) := by
      simp
      omega
    rw [count_three, count_delta_zero _ _ herr]
    simp
  | drain =>
    obtain ⟨ht, hs'⟩ := step_drain_inv s s' hstep
    rw [hs', drainFn_eq]
    rcases hp : s.pending with _ | ⟨rid0, rest⟩
    · rfl
    · show (if s.busy = true
          then { s with processing := false, pending := rid0 :: rest,
                        timers := s.timers - 1 }
          else startInternal
            { s with timers := s.timers - 1, processing := true,
                     pending := rest } rid0).events.count (CbEvent.errorCb rid) = _
      by_cases hb : s.busy = true
      · rw [if_pos hb]
      · rw [if_neg hb]
        rfl
  | cleanupSynth =>
    rw [step_cleanupSynth_inv s s' hstep]
    rfl

theorem freeze_runFrom (rid : Nat) :
    ∀ (evs : List Ev) (s s' : TTSState), runFrom s evs = some s' →
      Inv0 s → (∃ r ∈ s.started, r.rid = rid ∧ r.interrupted = true) →
      s'.events.count (CbEvent.chunk rid) = s.events.count (CbEvent.chunk rid)
      ∧ ((∀ c a, Ev.result rid c a ∉ evs) → Ev.fail rid ∉ evs →
          s'.events.count (CbEvent.errorCb rid) = s.events.count (CbEvent.errorCb rid)) := by
  intro evs
  induction evs with
  | nil =>
    intro s s' h _ _
    rw [← Option.some_inj.mp h]
    exact ⟨rfl, fun _ _ => rfl⟩
  | cons e es ih =>
    intro s s' h hI0 hex
    rcases hst : step s e with _ | t
    · rw [show runFrom s (e :: es)
            = (match step s e with
               | some t => runFrom t es
               | none => none) from rfl, hst] at h
      exact absurd h (by simp)
    · rw [runFrom_cons_some s t e es hst] at h
      obtain ⟨r, hr, hrid, hi⟩ := hex
      have hI0' : Inv0 t := inv0_step s t e hI0 hst
      have hex' : ∃ r' ∈ t.started, r'.rid = rid ∧ r'.interrupted = true := by
        obtain ⟨r', hr', hrid', hi', _, _⟩ := step_mono s t e hst r hr
        exact ⟨r', hr', hrid'.trans hrid, hi' hi⟩
      obtain ⟨ihc, ihe⟩ := ih t s' h hI0' hex'
      constructor
      · rw [ihc, step_chunk_freeze s t e hst hI0 rid r hr hrid hi]
      · intro hner hnef
        have hner' : ∀ c a, Ev.result rid c a ∉ es := by
          intro c a hmem
          exact hner c a (List.mem_cons_of_mem e hmem)
        have hnef' : Ev.fail rid ∉ es := by
          intro hmem
          exact hnef (List.mem_cons_of_mem e hmem)
        rw [ihe hner' hnef',
          step_error_freeze s t e hst rid
            (fun c a hcon => hner c a (hcon ▸ List.mem_cons_self e es))
            (fun hcon => hnef (hcon ▸ List.mem_cons_self e es))]

theorem ridDead_step (s s' : TTSState) (e : Ev) (hstep : step s e = some s')
    (rid : Nat) (hD : ridDead rid s) : ridDead rid s' := by
  obtain ⟨hlt, hnp, hns, hne⟩ := hD
  cases e with
  | submit =>
    have hs' : s' = (textToSpeech true true s).1 := by
      rw [step_submit_eq] at hstep
      exact (Option.some_inj.mp hstep).symm
    by_cases hb : s.busy = true
    · rw [hs', submit_busy_eq s hb]
      refine ⟨show rid < s.nextId + 1 by omega, ?_, hns, hne⟩
      intro hmem
      rcases List.mem_append.mp hmem with h | h
      · exact hnp h
      · rcases List.mem_singleton.mp h with h
        omega
    · have hb' : s.busy = false := by
        cases h : s.busy
        · rfl
        · exact absurd h hb
      rw [hs', submit_idle_eq s hb']
      refine ⟨show rid < s.nextId + 1 by omega, hnp, ?_, hne⟩
      show rid ∉ (s.started ++ [StartedReq.mk s.nextId false false false]).map StartedReq.rid
      rw [List.map_append]
      intro hmem
      rcases List.mem_append.mp hmem with h | h
      · exact hns h
      · simp only [List.map_cons, List.map_nil, List.mem_singleton] at h
        omega
  | stop rid' =>
    obtain ⟨⟨q, hf⟩, hs'⟩ := step_stop_inv s s' rid' hstep
    have hq : q ∈ s.started := findReq_mem s rid' q hf
    have hqrid : q.rid = rid' := findReq_rid s rid' q hf
    have hrr : rid' ≠ rid := by
      intro hcon
      exact hns (by
        rw [← hcon, ← hqrid]
        exact List.mem_map_of_mem StartedReq.rid hq)
    by_cases hqi : q.interrupted = true
    · rw [hs', doStop_already_interrupted s rid' q hf hqi]
      exact ⟨hlt, hnp, hns, hne⟩
    · have hqi' : q.interrupted = false := by
        cases h : q.interrupted
        · rfl
        · exact absurd h hqi
      rw [hs', doStop_first s rid' q hf hqi',
        cleanupFn_mark_eq s rid' (fun x => { x with interrupted := true })
          (fun _ => rfl) s.events]
      refine ⟨hlt, hnp, ?_, ?_⟩
      · show rid ∉ List.map StartedReq.rid (markReq rid'
          (fun x => { x with interrupted := true, cleaned := true }) s.started)
        rw [markReq_rids s.started rid'
          (fun x => { x with interrupted := true, cleaned := true }) (fun _ => rfl)]
        exact hns
      · intro x hx
        rcases List.mem_append.mp hx with h | h
        · exact hne x h
        · rcases List.mem_singleton.mp h with rfl
          exact hrr
  | result rid' c a =>
    obtain ⟨q, hf, hd, hs'⟩ := step_result_inv s s' rid' c a hstep
    have hq : q ∈ s.started := findReq_mem s rid' q hf
    have hqrid : q.rid = rid' := findReq_rid s rid' q hf
    have hrr : rid' ≠ rid := by
      intro hcon
      exact hns (by
        rw [← hcon, ← hqrid]
        exact List.mem_map_of_mem StartedReq.rid hq)
    rw [hs', deliverResult_eq s rid' c a q hf,
      cleanupFn_mark_eq s rid' (fun x => { x with delivered := true })
        (fun _ => rfl)
        (s.events ++
          (if !q.interrupted && c then (if a then [CbEvent.chunk rid'] else [])
           else if !c then [CbEvent.errorCb rid'] else []))]
    refine ⟨hlt, hnp, ?_, ?_⟩
    · show rid ∉ List.map StartedReq.rid (markReq rid'
        (fun x => { x with delivered := true, cleaned := true }) s.started)
      rw [markReq_rids s.started rid'
        (fun x => { x with delivered := true, cleaned := true }) (fun _ => rfl)]
      exact hns
    · intro x hx
      rcases List.mem_append.mp hx with h | h
      · rcases List.mem_append.mp h with h | h
        · exact hne x h
        · rw [resultDelta_rid q rid' c a x h]
          exact hrr
      · rcases List.mem_singleton.mp h with rfl
        exact hrr
  | fail rid' =>
    obtain ⟨q, hf, hd, hs'⟩ := step_fail_inv s s' rid' hstep
    have hq : q ∈ s.started := findReq_mem s rid' q hf
    have hqrid : q.rid = rid' := findReq_rid s rid' q hf
    have hrr : rid' ≠ rid := by
      intro hcon
      exact hns (by
        rw [← hcon, ← hqrid]
        exact List.mem_map_of_mem StartedReq.rid hq)
    rw [hs', deliverError_eq s rid',
      cleanupFn_mark_eq s rid' (fun x => { x with delivered := true })
        (fun _ => rfl) (s.events ++ [CbEvent.errorCb rid'])]
    refine ⟨hlt, hnp, ?_, ?_⟩
    · show rid ∉ List.map StartedReq.rid (markReq rid'
        (fun x => { x with delivered := true, cleaned := true }) s.started)
      rw [markReq_rids s.started rid'
        (fun x => { x with delivered := true, cleaned := true }) (fun _ => rfl)]
      exact hns
    · intro x hx
      rcases List.mem_append.mp hx with h | h
      · rcases List.mem_append.mp h with h | h
        · exact hne x h
        · rcases List.mem_singleton.mp h with rfl
          exact hrr
      · rcases List.mem_singleton.mp h with rfl
        exact hrr
  | drain =>
    obtain ⟨ht, hs'⟩ := step_drain_inv s s' hstep
    rw [hs', drainFn_eq]
    rcases hp : s.pending with _ | ⟨rid0, rest⟩
    · exact ⟨hlt, by
        rw [hp] at hnp
        exact hnp, hns, hne⟩
    · show ridDead rid (if s.busy = true
          then { s with processing := false, pending := rid0 :: rest,
                        timers := s.timers - 1 }
          else startInternal
            { s with timers := s.timers - 1, processing := true,
                     pending := rest } rid0)
      rw [hp] at hnp
      by_cases hb : s.busy = true
      · rw [if_pos hb]
        exact ⟨hlt, hnp, hns, hne⟩
      · rw [if_neg hb]
        refine ⟨hlt, ?_, ?_, hne⟩
        · intro hmem
          exact hnp (List.mem_cons_of_mem rid0 hmem)
        · show rid ∉ (s.started ++ [StartedReq.mk rid0 false false false]).map StartedReq.rid
          rw [List.map_append]
          intro hmem
          rcases List.mem_append.mp hmem with h | h
          · exact hns h
          · simp only [List.map_cons, List.map_nil, List.mem_singleton] at h
            exact hnp (by
              rw [h]
              exact List.mem_cons_self rid0 rest)
  | cleanupSynth =>
    rw [step_cleanupSynth_inv s s' hstep]
    exact ⟨hlt, List.not_mem_nil rid, hns, hne⟩

theorem ridDead_runFrom (rid : Nat) (evs : List Ev) (s s' : TTSState)
    (h : runFrom s evs = some s') (hD : ridDead rid s) : ridDead rid s' :=
  runFrom_preserve (ridDead rid) (fun s e t hst hd => ridDead_step s t e hst rid hd)
    evs s s' h hD

/-- C1 counterexample: the claim that at most one request is in the
Synthesizing state at any instant, for every interleaving, is false — a
`stop()` on a handle whose request has already completed naturally runs
`cleanup()` a second time, clearing `isSynthesizerBusy` while another
request is mid-synthesis, so a further submission starts immediately and
two requests synthesize concurrently. -/
theorem c1_counterexample :
    ¬ (∀ (evs : List Ev) (s : TTSState), run evs = some s →
        ∀ r ∈ s.started, ∀ q ∈ s.started,
          Synthesizing r → Synthesizing q → r = q) := by
  intro h
  have := h [Ev.submit, Ev.result 0 true true, Ev.submit, Ev.stop 0, Ev.submit]
    { nextId := 3, busy := true, processing := false, pending := [],
      started := [⟨0, true, true, true⟩, ⟨1, false, false, false⟩,
        ⟨2, false, false, false⟩],
      timers := 2, synthAlive := true,
      events := [CbEvent.chunk 0, CbEvent.complete 0, CbEvent.complete 0] }
    (by decide)
    (StartedReq.mk 1 false false false) (by decide)
    (StartedReq.mk 2 false false false) (by decide)
    ⟨rfl, rfl⟩ ⟨rfl, rfl⟩
  exact absurd this (by decide)

/-- C1 amended: in every disciplined trace — `stop()` is not invoked on a
handle whose request has already completed, and the provider delivers no
callback for a request after its stop — at most one request is in the
Synthesizing state at any instant, process-wide; and unconditionally,
whenever the synthesizer is busy a new `textToSpeech` call appends the
request to the pending queue instead of starting it. -/
theorem c1_amended (evs : List Ev) (s : TTSState) (h : runD evs = some s) :
    (∀ r ∈ s.started, ∀ q ∈ s.started,
      Synthesizing r → Synthesizing q → r = q) ∧
    (s.busy = true →
      (textToSpeech true true s).1.pending = s.pending ++ [s.nextId] ∧
      (textToSpeech true true s).1.started = s.started) := by
  obtain ⟨hI0, hJ1, hJ2, hJ3, hK1, hK2, hK3⟩ := invD_runD evs s h
  constructor
  · intro r hr q hq hsr hsq
    apply hJ2 r hr q hq
    · rw [hJ1 r hr, hsr.1, hsr.2]
      rfl
    · rw [hJ1 q hq, hsq.1, hsq.2]
      rfl
  · intro hb
    rw [submit_busy_eq s hb]
    exact ⟨rfl, rfl⟩

/-- C1 amended, witness: after one disciplined submission the synthesizer
is busy and a second call queues the new request. -/
theorem c1_amended_witness :
    (textToSpeech true true
      { nextId := 1, busy := true, processing := false, pending := [],
        started := [⟨0, false, false, false⟩], timers := 0, synthAlive := true,
        events := [] }).1.pending = [] ++ [1] :=
  ((c1_amended [Ev.submit]
    { nextId := 1, busy := true, processing := false, pending := [],
      started := [⟨0, false, false, false⟩], timers := 0, synthAlive := true,
      events := [] } (by decide)).2 rfl).1

/-- C3 counterexample: the claim that `onComplete` fires exactly once per
started request is false — `stop()` called after a request completed
naturally runs `cleanup()` again and the request's `onComplete` fires a
second time. -/
theorem c3_counterexample :
    ¬ (∀ (evs : List Ev) (s : TTSState), run evs = some s →
        ∀ r ∈ s.started, s.events.count (CbEvent.complete r.rid) ≤ 1) := by
  intro h
  have := h [Ev.submit, Ev.result 0 true true, Ev.stop 0]
    { nextId := 1, busy := false, processing := false, pending := [],
      started := [⟨0, true, true, true⟩], timers := 2, synthAlive := true,
      events := [CbEvent.chunk 0, CbEvent.complete 0, CbEvent.complete 0] }
    (by decide)
    (StartedReq.mk 0 true true true) (by decide)
  exact absurd this (by decide)

/-- C3 amended: in every disciplined trace that submits a request and
stops its handle before any provider callback, the request receives
exactly one `onComplete` and no `onChunk`, no matter how the trace
continues; and in such traces every started request receives `onComplete`
at most once (exactly once it has been cleaned up). -/
theorem c3_amended (evs : List Ev) (s : TTSState)
    (h : runD (Ev.submit :: Ev.stop 0 :: evs) = some s) :
    s.events.count (CbEvent.complete 0) = 1 ∧
    s.events.count (CbEvent.chunk 0) = 0 ∧
    ∀ r ∈ s.started, s.events.count (CbEvent.complete r.rid) ≤ 1 := by
  obtain ⟨hI0, hJ1, hJ2, hJ3, hK1, hK2, hK3⟩ := invD_runD _ s h
  have h2 : runFromD
      { nextId := 1, busy := false, processing := false, pending := [],
        started := [⟨0, true, false, true⟩], timers := 1, synthAlive := true,
        events := [CbEvent.complete 0] } evs = some s := by
    have e1 : stepD initState Ev.submit
        = some { nextId := 1, busy := true, processing := false, pending := [],
                 started := [⟨0, false, false, false⟩], timers := 0,
                 synthAlive := true, events := [] } := by decide
    have e2 : stepD
        { nextId := 1, busy := true, processing := false, pending := [],
          started := [⟨0, false, false, false⟩], timers := 0,
          synthAlive := true, events := [] } (Ev.stop 0)
        = some { nextId := 1, busy := false, processing := false, pending := [],
                 started := [⟨0, true, false, true⟩], timers := 1,
                 synthAlive := true, events := [CbEvent.complete 0] } := by decide
    rw [runD, runFromD_cons_some _ _ Ev.submit _ e1,
      runFromD_cons_some _ _ (Ev.stop 0) _ e2] at h
    exact h
  have hrun := runFromD_imp_runFrom evs _ s h2
  obtain ⟨r0, hr0, hrid0, hint0, hcl0⟩ :=
    stopped_persists 0 evs _ s hrun
      ⟨StartedReq.mk 0 true false true, by decide, rfl, rfl, rfl⟩
  refine ⟨?_, ?_, ?_⟩
  · have hk := hK1 r0 hr0
    rw [hrid0, hcl0] at hk
    simpa using hk
  · have hk := hK2 r0 hr0 hint0
    rw [hrid0] at hk
    exact hk
  · intro r hr
    rw [hK1 r hr]
    split <;> omega

/-- C3 amended, witness: the submit-then-stop trace itself shows one
`onComplete` and no `onChunk`. -/
theorem c3_amended_witness :
    ∃ s, runD [Ev.submit, Ev.stop 0] = some s ∧
      s.events.count (CbEvent.complete 0) = 1 ∧
      s.events.count (CbEvent.chunk 0) = 0 := by
  refine ⟨{ nextId := 1, busy := false, processing := false, pending := [],
            started := [⟨0, true, false, true⟩], timers := 1, synthAlive := true,
            events := [CbEvent.complete 0] }, by decide, ?_, ?_⟩
  · exact (c3_amended []
      { nextId := 1, busy := false, processing := false, pending := [],
        started := [⟨0, true, false, true⟩], timers := 1, synthAlive := true,
        events := [CbEvent.complete 0] } (by decide)).1
  · exact (c3_amended []
      { nextId := 1, busy := false, processing := false, pending := [],
        started := [⟨0, true, false, true⟩], timers := 1, synthAlive := true,
        events := [CbEvent.complete 0] } (by decide)).2.1

/-- C4 counterexample: the claim that after `stop()` no `onError` occurs
for the stopped request is false — if the provider later delivers a
non-completed result for the stopped request, the result callback's
`reason !== SynthesizingAudioCompleted` branch is not guarded by
`isInterrupted` and invokes `onError`. -/
theorem c4_counterexample :
    ¬ (∀ (evs evs' : List Ev) (s₁ s : TTSState) (rid : Nat),
        run evs = some s₁ →
        (∃ r ∈ s₁.started, r.rid = rid ∧ r.interrupted = true) →
        runFrom s₁ evs' = some s →
        s.events.count (CbEvent.errorCb rid)
          = s₁.events.count (CbEvent.errorCb rid)) := by
  intro h
  have := h [Ev.submit, Ev.stop 0] [Ev.result 0 false false]
    { nextId := 1, busy := false, processing := false, pending := [],
      started := [⟨0, true, false, true⟩], timers := 1, synthAlive := true,
      events := [CbEvent.complete 0] }
    { nextId := 1, busy := false, processing := false, pending := [],
      started := [⟨0, true, true, true⟩], timers := 2, synthAlive := true,
      events := [CbEvent.complete 0, CbEvent.errorCb 0, CbEvent.complete 0] }
    0 (by decide)
    ⟨StartedReq.mk 0 true false true, by decide, rfl, rfl⟩ (by decide)
  exact absurd this (by decide)

/-- C4 amended: once a request's handle has been stopped, no further
`onChunk` is ever delivered for it, in every continuation of the trace;
and `onError` is delivered for it only by a late provider callback — if
the continuation contains no provider result or error event for the
stopped request, its `onError` count never changes. -/
theorem c4_amended (evs evs' : List Ev) (s₁ s : TTSState) (rid : Nat)
    (r : StartedReq)
    (h₁ : run evs = some s₁) (hr : r ∈ s₁.started) (hrid : r.rid = rid)
    (hi : r.interrupted = true)
    (h₂ : runFrom s₁ evs' = some s) :
    s.events.count (CbEvent.chunk rid) = s₁.events.count (CbEvent.chunk rid) ∧
    ((∀ c a, Ev.result rid c a ∉ evs') → Ev.fail rid ∉ evs' →
      s.events.count (CbEvent.errorCb rid)
        = s₁.events.count (CbEvent.errorCb rid)) :=
  freeze_runFrom rid evs' s₁ s h₂ (inv0_run evs s₁ h₁) ⟨r, hr, hrid, hi⟩

/-- C4 amended, witness: stopping request 0 and letting a drain timer fire
delivers no chunk and no error for it. -/
theorem c4_amended_witness :
    ({ nextId := 1, busy := false, processing := false, pending := [],
       started := [(⟨0, true, false, true⟩ : StartedReq)], timers := 0,
       synthAlive := true,
       events := [CbEvent.complete 0] } : TTSState).events.count (CbEvent.chunk 0)
      = ({ nextId := 1, busy := false, processing := false, pending := [],
           started := [(⟨0, true, false, true⟩ : StartedReq)], timers := 1,
           synthAlive := true,
           events := [CbEvent.complete 0] } : TTSState).events.count (CbEvent.chunk 0) ∧
    ({ nextId := 1, busy := false, processing := false, pending := [],
       started := [(⟨0, true, false, true⟩ : StartedReq)], timers := 0,
       synthAlive := true,
       events := [CbEvent.complete 0] } : TTSState).events.count (CbEvent.errorCb 0)
      = ({ nextId := 1, busy := false, processing := false, pending := [],
           started := [(⟨0, true, false, true⟩ : StartedReq)], timers := 1,
           synthAlive := true,
           events := [CbEvent.complete 0] } : TTSState).events.count (CbEvent.errorCb 0) := by
  have hc := c4_amended [Ev.submit, Ev.stop 0] [Ev.drain]
    { nextId := 1, busy := false, processing := false, pending := [],
      started := [⟨0, true, false, true⟩], timers := 1, synthAlive := true,
      events := [CbEvent.complete 0] }
    { nextId := 1, busy := false, processing := false, pending := [],
      started := [⟨0, true, false, true⟩], timers := 0, synthAlive := true,
      events := [CbEvent.complete 0] }
    0 (StartedReq.mk 0 true false true) (by decide) (by decide) rfl rfl (by decide)
  exact ⟨hc.1, hc.2 (by decide) (by decide)⟩

theorem doStop_fields (s : TTSState) (rid' : Nat) :
    (doStop s rid').nextId = s.nextId ∧
    (doStop s rid').pending = s.pending ∧
    startedRids (doStop s rid') = startedRids s ∧
    ∀ e ∈ (doStop s rid').events,
      e ∈ s.events ∨ ∃ q ∈ s.started, e = CbEvent.complete q.rid := by
  rcases hf : findReq s rid' with _ | q
  · rw [doStop_not_found s rid' hf]
    exact ⟨rfl, rfl, rfl, fun e he => Or.inl he⟩
  · by_cases hi : q.interrupted = true
    · rw [doStop_already_interrupted s rid' q hf hi]
      exact ⟨rfl, rfl, rfl, fun e he => Or.inl he⟩
    · have hi' : q.interrupted = false := by
        cases hb : q.interrupted
        · rfl
        · exact absurd hb hi
      rw [doStop_first s rid' q hf hi',
        cleanupFn_mark_eq s rid' (fun x => { x with interrupted := true })
          (fun _ => rfl) s.events]
      refine ⟨rfl, rfl, ?_, ?_⟩
      · show List.map StartedReq.rid (markReq rid'
          (fun x => { x with interrupted := true, cleaned := true }) s.started) = _
        exact markReq_rids s.started rid'
          (fun x => { x with interrupted := true, cleaned := true }) (fun _ => rfl)
      · intro e he
        rcases List.mem_append.mp he with hmem | hmem
        · exact Or.inl hmem
        · rcases List.mem_singleton.mp hmem with rfl
          refine Or.inr ⟨q, findReq_mem s rid' q hf, ?_⟩
          rw [findReq_rid s rid' q hf]

theorem stopHandleRet_fields (s : TTSState) (ret : TTSRet) :
    (stopHandleRet s ret).nextId = s.nextId ∧
    (stopHandleRet s ret).pending = s.pending ∧
    startedRids (stopHandleRet s ret) = startedRids s ∧
    ∀ e ∈ (stopHandleRet s ret).events,
      e ∈ s.events ∨ ∃ q ∈ s.started, e = CbEvent.complete q.rid := by
  cases ret with
  | noopHandle => exact ⟨rfl, rfl, rfl, fun e he => Or.inl he⟩
  | noRet => exact ⟨rfl, rfl, rfl, fun e he => Or.inl he⟩
  | handle rid' => exact doStop_fields s rid'

/-- C10: a session-end or disconnect event stops the connection's own
stored handle (skipped when the stored value is `undefined` or a no-op)
and then invokes the process-wide `cleanupSynthesizer`: the synthesizer is
closed and discarded, the busy and processing flags are cleared, and the
entire pending queue is emptied — and every request still queued at that
moment has never had, and will never have, any of its `onChunk`,
`onError` or `onComplete` callbacks invoked, in every continuation of the
trace. -/
theorem c10_session_end_cleanup (evs : List Ev) (s : TTSState) (hnd : Option TTSRet)
    (h : run evs = some s) :
    (endSessionStep s hnd).synthAlive = false ∧
    (endSessionStep s hnd).busy = false ∧
    (endSessionStep s hnd).pending = [] ∧
    (endSessionStep s hnd).processing = false ∧
    ∀ rid ∈ s.pending, noEv rid s.events ∧
      ∀ (evs' : List Ev) (s' : TTSState),
        runFrom (endSessionStep s hnd) evs' = some s' → noEv rid s'.events := by
  have hI0 := inv0_run evs s h
  obtain ⟨hnd0, hpb, hsb, hpe, heb⟩ := hI0
  have hdisj : s.pending.Disjoint (startedRids s) := (List.nodup_append.mp hnd0).2.2
  refine ⟨rfl, rfl, rfl, rfl, ?_⟩
  intro rid hrid
  have hnotst : rid ∉ startedRids s := fun hmem => hdisj hrid hmem
  have hnoev : noEv rid s.events := hpe rid hrid
  have hdead : ridDead rid (endSessionStep s hnd) := by
    cases hnd with
    | none =>
      refine ⟨?_, List.not_mem_nil rid, ?_, ?_⟩
      · show rid < s.nextId
        exact hpb rid hrid
      · show rid ∉ startedRids s
        exact hnotst
      · show noEv rid s.events
        exact hnoev
    | some ret =>
      obtain ⟨h1, h2, h3, h4⟩ := stopHandleRet_fields s ret
      refine ⟨?_, List.not_mem_nil rid, ?_, ?_⟩
      · show rid < (stopHandleRet s ret).nextId
        rw [h1]
        exact hpb rid hrid
      · show rid ∉ startedRids (stopHandleRet s ret)
        rw [h3]
        exact hnotst
      · show noEv rid (stopHandleRet s ret).events
        intro e he
        rcases h4 e he with hmem | ⟨q, hq, rfl⟩
        · exact hnoev e hmem
        · show q.rid ≠ rid
          intro hcon
          exact hnotst (hcon ▸ List.mem_map_of_mem StartedReq.rid hq)
  refine ⟨hnoev, ?_⟩
  intro evs' s' h'
  exact (ridDead_runFrom rid evs' _ s' h' hdead).2.2.2

/-- C10 witness: with one active and one queued request, ending the
session clears the queue and the queued request has no callback events. -/
theorem c10_witness :
    (endSessionStep
      { nextId := 2, busy := true, processing := false, pending := [1],
        started := [⟨0, false, false, false⟩], timers := 0, synthAlive := true,
        events := [] } (some (TTSRet.handle 0))).pending = [] ∧
    noEv 1 ({ nextId := 2, busy := true, processing := false, pending := [1],
              started := [(⟨0, false, false, false⟩ : StartedReq)], timers := 0,
              synthAlive := true, events := [] } : TTSState).events := by
  have hc := c10_session_end_cleanup [Ev.submit, Ev.submit]
    { nextId := 2, busy := true, processing := false, pending := [1],
      started := [⟨0, false, false, false⟩], timers := 0, synthAlive := true,
      events := [] } (some (TTSRet.handle 0)) (by decide)
  exact ⟨hc.2.2.1, (hc.2.2.2.2 1 (by decide)).1⟩

end ZeyphrAI
